import Mathlib

/-!
# 8-bit CPU core: instruction encoder and assembler (`sim_main.cpp`)

A shallow embedding of the instruction encoders (`makeNOP` .. `makeMOV2`), of the
line assembler `assemble`, of the batch loop of `main`, of the clock helper `tick` and
of the simulation session of `main` (reset, load, run, readback), followed by the
properties of the encoding, of the assembler and of the driver.

Modelling conventions.

* A C++ `int` is a Lean `Int`.  The encoders only mask (`&` with 1, 3 or 7), shift
  left by at most 4 and OR non-negative values, so on the sixteen enumerators no
  intermediate value leaves the range of a 32-bit `int`; the bitwise operators are
  the two's-complement operators `Int.land`, `Int.lor` and `<<<` of the library.
* `std::string` is `String`, a `char` is a `Char`; `std::isspace` and
  `std::toupper` are those of the classic "C" locale.
* `std::istringstream` is a record of the unread characters and the `eofbit` and
  `failbit` flags; `operator>>` follows the C++11 rules (a failed numeric
  extraction stores 0, an extraction on a stream that is not `good()` leaves its
  target untouched).
* A thrown `std::runtime_error` is an `Except.error` value holding the string it was
  built from; `what()` is the C string of it, which ends at the first NUL character.
* A local `int` declared without an initialiser holds an indeterminate value, which the
  model takes as a parameter (`junk`); the static table `opcodeMap` is passed to
  `assemble` and returned by it, so that a change of the table would be visible.
* The processor model `Vcpu8` is external: its `eval` and its output pin are parameters,
  and a session keeps the history of the evaluations, of the waveform sample times and
  of the lines printed.
-/

namespace Cpu8

/-! ## Bitwise operators on `int` -/

instance : AndOp Int := ⟨Int.land⟩

instance : OrOp Int := ⟨Int.lor⟩

/-! ## Opcodes -/

/-- The type `enum Opcode`: an integer-valued enumeration.  The sixteen enumerators are
the constants below; the cast `(Opcode)-1` used by the mnemonic table is `⟨-1⟩`. -/
structure Opcode where
  val : Int
deriving DecidableEq, Repr

namespace Opcode

def ADD : Opcode := ⟨0b0000⟩
def ADDI : Opcode := ⟨0b0001⟩
def SUB : Opcode := ⟨0b0010⟩
def SUBI : Opcode := ⟨0b0011⟩
def AND : Opcode := ⟨0b0100⟩
def OR : Opcode := ⟨0b0101⟩
def XOR : Opcode := ⟨0b0110⟩
def NOT : Opcode := ⟨0b0111⟩
def LSL : Opcode := ⟨0b1000⟩
def LSR : Opcode := ⟨0b1001⟩
def LDUR : Opcode := ⟨0b1010⟩
def STOR : Opcode := ⟨0b1011⟩
def CMP : Opcode := ⟨0b1100⟩
def B : Opcode := ⟨0b1101⟩
def MOV1 : Opcode := ⟨0b1110⟩
def MOV2 : Opcode := ⟨0b1111⟩

/-- The sixteen enumerators of `enum Opcode`, in declaration order. -/
def enumerators : List Opcode :=
  [ADD, ADDI, SUB, SUBI, AND, OR, XOR, NOT, LSL, LSR, LDUR, STOR, CMP, B, MOV1, MOV2]

/-- The ten opcodes of the ALU shape. -/
def alu : List Opcode :=
  [ADD, ADDI, SUB, SUBI, AND, OR, XOR, NOT, LSL, LSR]

end Opcode

open Opcode

/-! ## Instruction encoders -/

def makeNOP : Int := 0x00

def makeALUOP (opcode : Opcode) (rd ra rb : Int) : Int :=
  (opcode.val <<< 4) ||| ((rd &&& 0b1) <<< 3) ||| ((ra &&& 0b1) <<< 2) ||| (rb &&& 0b11)

def makeLOAD (reg addr : Int) : Int :=
  (LDUR.val <<< 4) ||| ((reg &&& 0x3) <<< 2) ||| (addr &&& 0x3)

def makeSTOR (rAddr addr : Int) : Int :=
  (STOR.val <<< 4) ||| ((rAddr &&& 0x3) <<< 2) ||| (addr &&& 0x3)

def makeB (condition reg_w_addr : Int) : Int :=
  (B.val <<< 4) ||| ((condition &&& 0x3) <<< 2) ||| (reg_w_addr &&& 0x3)

def makeCMP (op1 op2 : Int) : Int :=
  (CMP.val <<< 4) ||| ((op1 &&& 0x3) <<< 2) ||| (op2 &&& 0x3)

def makeMOV1 (rd : Int) : Int :=
  (MOV1.val <<< 4) ||| ((rd &&& 0x7) <<< 1)

def makeMOV2 (rs : Int) : Int :=
  (MOV2.val <<< 4) ||| ((rs &&& 0x7) <<< 1)

/-! ## Parser helpers -/

/-- `std::isspace` in the classic locale: space, `\t`, `\n`, `\v`, `\f` and `\r`. -/
def isspace (c : Char) : Bool :=
  c.toNat = 32 || (9 ≤ c.toNat && c.toNat ≤ 13)

/-- `std::toupper` in the classic locale: `a`..`z` go to `A`..`Z`, every other character
is unchanged. -/
def toupper (c : Char) : Char := c.toUpper

/-- The decimal digits accepted by `num_get` for an `int` read in base 10. -/
def isdigit (c : Char) : Bool :=
  48 ≤ c.toNat && c.toNat ≤ 57

def INT_MAX : Int := 2147483647

def INT_MIN : Int := -2147483648

/-- The state of a `std::istringstream`: the characters not yet extracted and the two
state flags that the extractions can set. -/
structure IStream where
  buf : List Char
  eofbit : Bool
  failbit : Bool
deriving DecidableEq, Repr

namespace IStream

/-- `std::istringstream iss(line)`. -/
def ofString (line : String) : IStream := ⟨line.data, false, false⟩

/-- `good()`: no state flag is set. -/
def good (s : IStream) : Bool := !s.eofbit && !s.failbit

/-- `iss >> str` for a `std::string`: when the stream is good, leading white space is
skipped and the maximal run of non-space characters is stored; reaching the end sets
`eofbit`.  When the stream is not good, or holds only white space, `failbit` is set and
`str` keeps its value. -/
def extractString (s : IStream) (str : String) : IStream × String :=
  if s.good then
    match s.buf.dropWhile isspace with
    | [] => (⟨[], true, true⟩, str)
    | c :: cs =>
      let rest := (c :: cs).dropWhile (fun x => !isspace x)
      (⟨rest, rest.isEmpty, false⟩, ⟨(c :: cs).takeWhile (fun x => !isspace x)⟩)
  else (⟨s.buf, s.eofbit, true⟩, str)

/-- The value of a run of decimal digits. -/
def digitsValue (ds : List Char) : Nat :=
  ds.foldl (fun acc c => 10 * acc + (c.toNat - 48)) 0

/-- `iss >> n` for an `int` (C++11): when the stream is not good, or holds only white
space, `failbit` is set and `n` keeps its value.  Otherwise an optional sign and the
maximal run of decimal digits are consumed: without a digit the extraction fails and
stores 0; a value outside the range of `int` fails and stores the nearest bound;
otherwise the value is stored.  Reaching the end of the text sets `eofbit`. -/
def extractInt (s : IStream) (n : Int) : IStream × Int :=
  if s.good then
    match s.buf.dropWhile isspace with
    | [] => (⟨[], true, true⟩, n)
    | c :: cs =>
      let neg := c = '-'
      let body := if c = '-' ∨ c = '+' then cs else c :: cs
      let ds := body.takeWhile isdigit
      let rest := body.dropWhile isdigit
      if ds.isEmpty then (⟨rest, rest.isEmpty, true⟩, 0)
      else
        let v : Int := if neg then -(digitsValue ds : Int) else (digitsValue ds : Int)
        if v < INT_MIN then (⟨rest, rest.isEmpty, true⟩, INT_MIN)
        else if INT_MAX < v then (⟨rest, rest.isEmpty, true⟩, INT_MAX)
        else (⟨rest, rest.isEmpty, false⟩, v)
  else (⟨s.buf, s.eofbit, true⟩, n)

end IStream

/-- The C string that `c_str()` hands to a reader of `const char*`: the characters of the
`std::string` before its first NUL character (all of them when it holds none). -/
def c_str (s : String) : String :=
  ⟨s.data.takeWhile (fun c => c != Char.ofNat 0)⟩

/-- `std::runtime_error`: an exception built from the `std::string` `what_arg`, of which
it keeps a copy. -/
structure RuntimeError where
  what_arg : String
deriving DecidableEq, Repr

/-- `what()`: the message as a `const char*`.  What a reader of it sees, `operator<<`
included, is the C string of `what_arg`, which ends at the first NUL character. -/
def RuntimeError.what (e : RuntimeError) : String :=
  c_str e.what_arg

/-- The type of the mnemonic table, `std::unordered_map<std::string, Opcode>`, as an
association list with unique keys. -/
abbrev OpcodeMap := List (String × Opcode)

/-- The initial contents of the static table `opcodeMap`. -/
def opcodeMap : OpcodeMap :=
  [("ADD", ADD), ("ADDI", ADDI), ("SUB", SUB), ("SUBI", SUBI),
   ("AND", AND), ("OR", OR), ("XOR", XOR), ("NOT", NOT),
   ("LSL", LSL), ("LSR", LSR), ("LDUR", LDUR), ("STOR", STOR),
   ("CMP", CMP), ("B", B), ("MOV1", MOV1), ("MOV2", MOV2),
   ("NOP", ⟨-1⟩)]

/-- `map[key]` (`operator[]`): the mapped value of `key`; when the key is absent a
value-initialised entry is inserted first. -/
def OpcodeMap.index (map : OpcodeMap) (key : String) : OpcodeMap × Opcode :=
  match map.lookup key with
  | some opc => (map, opc)
  | none => (map ++ [(key, ⟨0⟩)], ⟨0⟩)

/-- What one call of `assemble` leaves behind: the returned word or the exception thrown,
the table `opcodeMap` after the call, and the final state of the local stream `iss`. -/
structure AsmRun where
  result : Except RuntimeError Int
  map : OpcodeMap
  iss : IStream

/-- `int assemble(const std::string& line)`.  `map` is the table `opcodeMap` at the time
of the call.  The operand variables are declared without an initialiser: `junk k` is the
indeterminate value the `k`-th of them holds before the extractions. -/
def assemble (map : OpcodeMap) (junk : Nat → Int) (line : String) : AsmRun :=
  let iss := IStream.ofString line
  let r := iss.extractString ""
  let iss := r.1
  let mnemonic : String := ⟨r.2.data.map toupper⟩
  if map.lookup mnemonic = none then
    ⟨.error ⟨"Unknown instruction: " ++ mnemonic⟩, map, iss⟩
  else
    let ix := map.index mnemonic
    let map := ix.1
    let opc := ix.2
    if mnemonic = "NOP" then
      ⟨.ok makeNOP, map, iss⟩
    else if mnemonic = "ADD" ∨ mnemonic = "ADDI" ∨ mnemonic = "SUB" ∨ mnemonic = "SUBI" ∨
        mnemonic = "AND" ∨ mnemonic = "OR" ∨ mnemonic = "XOR" ∨ mnemonic = "NOT" ∨
        mnemonic = "LSL" ∨ mnemonic = "LSR" then
      let r1 := iss.extractInt (junk 0)
      let r2 := r1.1.extractInt (junk 1)
      let r3 := r2.1.extractInt (junk 2)
      ⟨.ok (makeALUOP opc r1.2 r2.2 r3.2), map, r3.1⟩
    else if mnemonic = "LDUR" then
      let r1 := iss.extractInt (junk 0)
      let r2 := r1.1.extractInt (junk 1)
      ⟨.ok (makeLOAD r1.2 r2.2), map, r2.1⟩
    else if mnemonic = "STOR" then
      let r1 := iss.extractInt (junk 0)
      let r2 := r1.1.extractInt (junk 1)
      ⟨.ok (makeSTOR r1.2 r2.2), map, r2.1⟩
    else if mnemonic = "B" then
      let r1 := iss.extractInt (junk 0)
      let r2 := r1.1.extractInt (junk 1)
      ⟨.ok (makeB r1.2 r2.2), map, r2.1⟩
    else if mnemonic = "CMP" then
      let r1 := iss.extractInt (junk 0)
      let r2 := r1.1.extractInt (junk 1)
      ⟨.ok (makeCMP r1.2 r2.2), map, r2.1⟩
    else if mnemonic = "MOV1" then
      let r1 := iss.extractInt (junk 0)
      ⟨.ok (makeMOV1 r1.2), map, r1.1⟩
    else if mnemonic = "MOV2" then
      let r1 := iss.extractInt (junk 0)
      ⟨.ok (makeMOV2 r1.2), map, r1.1⟩
    else
      ⟨.error ⟨"Assembler: unsupported mnemonic " ++ mnemonic⟩, map, iss⟩

/-! ## The batch loop of `main` -/

/-- The state of the assembling loop of `main`: the vector `program`, the messages written
to `std::cerr` (one entry per message), and the table `opcodeMap`. -/
structure Batch where
  program : List Int
  cerr : List String
  map : OpcodeMap

/-- The loop `for (auto& line : assembly) try program.push_back(assemble(line)) catch ...`,
from the line of index `k` on.  `junk k` holds the indeterminate initial values of the
operand variables in the call for line `k`. -/
def assembleLoop (junk : Nat → Nat → Int) : Nat → List String → Batch → Batch
  | _, [], b => b
  | k, line :: rest, b =>
    match (assemble b.map (junk k) line).result with
    | .ok w =>
      assembleLoop junk (k + 1) rest
        ⟨b.program ++ [w], b.cerr, (assemble b.map (junk k) line).map⟩
    | .error e =>
      assembleLoop junk (k + 1) rest
        ⟨b.program, b.cerr ++ ["Error: " ++ e.what ++ " in line: " ++ line ++ "\n"],
          (assemble b.map (junk k) line).map⟩

/-- The whole loop, started with an empty `program` and the initial table. -/
def assembleProgram (junk : Nat → Nat → Int) (assembly : List String) : Batch :=
  assembleLoop junk 0 assembly ⟨[], [], opcodeMap⟩

/-! ## Vocabulary of the statements -/

/-- The first white-space-delimited token of a line; empty when the line is blank. -/
def firstToken (line : String) : String :=
  ⟨(line.data.dropWhile isspace).takeWhile (fun x => !isspace x)⟩

/-- The mnemonic of a line: its first token, uppercased. -/
def mnemonicOf (line : String) : String :=
  ⟨(firstToken line).data.map toupper⟩

/-- The seventeen names of the mnemonic table: the sixteen opcode names and `NOP`. -/
def mnemonics : List String :=
  ["ADD", "ADDI", "SUB", "SUBI", "AND", "OR", "XOR", "NOT", "LSL", "LSR", "LDUR", "STOR",
   "CMP", "B", "MOV1", "MOV2", "NOP"]

/-- The stream as the extraction of the mnemonic leaves it: the operand extractions of
`assemble` start from it. -/
def operandStream (line : String) : IStream :=
  ((IStream.ofString line).extractString "").1

/-- Whether `iss >> n` stores a value in `n`: the stream is good and holds a character that
is not white space.  Otherwise the extraction leaves `n` as it was. -/
def IStream.writes (s : IStream) : Bool :=
  s.good && !(s.buf.dropWhile isspace).isEmpty

/-- Whether each of `k` successive extractions of an `int` from the stream stores a
value (the stream that an extraction leaves does not depend on what the variable held). -/
def IStream.writesAll : Nat → IStream → Bool
  | 0, _ => true
  | k + 1, s => s.writes && IStream.writesAll k (s.extractInt 0).1

/-- The number of operand variables that the dispatch branch of a mnemonic extracts. -/
def operandCount (M : String) : Nat :=
  if M ∈ ["ADD", "ADDI", "SUB", "SUBI", "AND", "OR", "XOR", "NOT", "LSL", "LSR"] then 3
  else if M ∈ ["LDUR", "STOR", "B", "CMP"] then 2
  else if M ∈ ["MOV1", "MOV2"] then 1
  else 0

/-- Whether every operand variable that `assemble` extracts for the line is written by its
extraction, so that no variable is read while it still holds its indeterminate value. -/
def operandsWritten (line : String) : Bool :=
  (operandStream line).writesAll (operandCount (mnemonicOf line))

/-- The values of a 32-bit signed `int`. -/
@[reducible] def InIntRange (z : Int) : Prop := INT_MIN ≤ z ∧ z ≤ INT_MAX

/-- The text of an instruction line: the mnemonic followed by its operands in decimal,
each preceded by one blank. -/
def instructionText (M : String) (operands : List Int) : String :=
  operands.foldl (fun s z => s ++ " " ++ toString z) M

/-- The word that line `i` of a batch contributes, if it assembles. -/
def lineWord (junk : Nat → Nat → Int) (assembly : List String) (i : Nat) : Option Int :=
  match assembly[i]? with
  | some line =>
    match (assemble opcodeMap (junk i) line).result with
    | .ok w => some w
    | .error _ => none
  | none => none

/-- The number of lines before position `i` that fail to assemble (for `i` up to the
number of lines). -/
def failuresBefore (junk : Nat → Nat → Int) (assembly : List String) (i : Nat) : Nat :=
  ((List.range i).filter (fun j => (lineWord junk assembly j).isNone)).length

/-! ## The simulation driver -/

/-- Modelled from the spec: the input pins of the processor model `Vcpu8`, declared in the
generated header `Vcpu8.h`, which is not among the sources.  The pins are those of the
external interface the driver writes; a pin holds the value last assigned to it (the
address pins range over the program addresses, the data pin over the instruction
words). -/
@[ext] structure Pins where
  clk : Nat
  rst : Nat
  service_mode : Nat
  program_memory_rst : Nat
  program_memory_write_enable : Nat
  program_memory_address : Nat
  program_memory_data_in : Int
  data_memory_address : Nat
deriving DecidableEq, Repr

/-- The simulated processor behind `Vcpu8`, an external collaborator whose code is not
among the sources; it is a parameter of every statement, so that the driver is verified
for every behaviour of the model.  `eval` is `top->eval()`: from the input pins and the
internal state of the model it gives the next internal state (the model reads its input
pins and does not write them); `data_memory_data_out` is the output pin, read from that
state. -/
structure Model (σ : Type) where
  eval : Pins → σ → σ
  data_memory_data_out : σ → Nat

/-- The state of a simulation session: the input pins of `top`, the internal state of the
model, the time base `main_time`, and three histories: every call of `eval` (the pins it
saw and the state it produced), the times of the waveform samples (`tfp->dump`), and the
lines written to `std::cout`, an entry `(cycle, value)` standing for the line
`Cycle <cycle> DataMemOut=0x<value>`. -/
structure Sim (σ : Type) where
  top : Pins
  state : σ
  main_time : Nat
  evals : List (Pins × σ)
  vcd : List Nat
  cout : List (Nat × Nat)

/-- `void tick(Vcpu8* top, vluint64_t& main_time, VerilatedVcdC* tfp)`; `tfp` tells whether
the trace handle is non-null.  The time base is a 64-bit counter that a session cannot
overflow; it is a natural number here. -/
def tick {σ : Type} (m : Model σ) (tfp : Bool) (s : Sim σ) : Sim σ :=
  let top1 : Pins := { s.top with clk := 1 }
  let state1 := m.eval top1 s.state
  let vcd1 := if tfp then s.vcd ++ [s.main_time] else s.vcd
  let time1 := s.main_time + 1
  let top2 : Pins := { top1 with clk := 0 }
  let state2 := m.eval top2 state1
  let vcd2 := if tfp then vcd1 ++ [time1] else vcd1
  let time2 := time1 + 1
  { top := top2, state := state2, main_time := time2,
    evals := s.evals ++ [(top1, state1), (top2, state2)], vcd := vcd2, cout := s.cout }

/-- The section `Reset CPU` of `main`. -/
def resetPhase {σ : Type} (m : Model σ) (s : Sim σ) : Sim σ :=
  let s1 : Sim σ := { s with top := { s.top with
    rst := 1, service_mode := 1, program_memory_rst := 1,
    program_memory_write_enable := 0 } }
  let s2 := tick m true s1
  { s2 with top := { s2.top with rst := 0, program_memory_rst := 0 } }

/-- The body of the loop of the section `Load program memory`, for the address `addr`
(always below `program.size()`). -/
def loadStep {σ : Type} (m : Model σ) (program : List Int) (s : Sim σ) (addr : Nat) :
    Sim σ :=
  tick m true { s with top := { s.top with
    program_memory_address := addr, program_memory_data_in := program.getD addr 0,
    program_memory_write_enable := 1 } }

/-- The section `Load program memory` of `main`. -/
def loadPhase {σ : Type} (m : Model σ) (program : List Int) (s : Sim σ) : Sim σ :=
  let s1 := (List.range program.length).foldl (loadStep m program) s
  { s1 with top := { s1.top with program_memory_write_enable := 0 } }

/-- The sections `Switch to run mode` and `Run CPU for some cycles` of `main`. -/
def runPhase {σ : Type} (m : Model σ) (s : Sim σ) : Sim σ :=
  let s1 : Sim σ := { s with top := { s.top with service_mode := 0 } }
  (List.range 256).foldl (fun s _ => tick m true s) s1

/-- The body of the loop of the section `Read data memory`, for the cycle `cycle`. -/
def readbackStep {σ : Type} (m : Model σ) (s : Sim σ) (cycle : Nat) : Sim σ :=
  let s1 := tick m true s
  let s2 : Sim σ := { s1 with top := { s1.top with data_memory_address := cycle } }
  { s2 with cout := s2.cout ++ [(cycle, m.data_memory_data_out s2.state)] }

/-- The section `Read data memory` of `main`. -/
def readbackPhase {σ : Type} (m : Model σ) (s : Sim σ) : Sim σ :=
  let s1 : Sim σ := { s with top := { s.top with service_mode := 1 } }
  (List.range 16).foldl (readbackStep m) s1

/-- The part of `main` that follows the assembly: a session that drives the model through
reset, load, run and readback.  `top0` and `init` are the pins and the internal state of
the freshly constructed model. -/
def session {σ : Type} (m : Model σ) (top0 : Pins) (init : σ) (program : List Int) :
    Sim σ :=
  readbackPhase m (runPhase m (loadPhase m program (resetPhase m
    { top := top0, state := init, main_time := 0, evals := [], vcd := [], cout := [] })))

/-- The built-in assembly program of `main`. -/
def assembly : List String :=
  ["ADDI 0 0 3", "ADDI 1 0 3", "MOV1 1", "MOV2 2", "LSL 0 1 3", "MOV1 1", "MOV2 2",
   "ADDI 0 1 2", "MOV1 6", "MOV2 2",
   "ADDI 0 0 1", "STOR 2 2", "ADDI 0 0 2", "MOV1 5", "MOV2 2",
   "ADDI 0 0 1", "ADDI 1 0 3", "MOV1 1", "MOV2 2", "LSL 0 1 3", "MOV1 4", "MOV2 2",
   "ADDI 0 0 0", "MOV1 1", "MOV2 2",
   "ADDI 0 0 1",
   "ADD 1 1 2", "MOV1 1", "MOV2 5", "STOR 3 1", "MOV1 7", "MOV2 2", "ADDI 0 1 1",
   "MOV1 5", "MOV2 2", "MOV1 2", "MOV2 7", "MOV1 1", "MOV2 4", "MOV1 7", "MOV2 3",
   "SUBI 1 1 1", "CMP 3 0", "MOV1 4", "MOV2 3", "MOV1 1", "MOV2 2", "MOV1 2", "MOV2 7",
   "B 2 2"]

/-- The function `main`: the built-in program is assembled, then loaded and run. -/
def main {σ : Type} (m : Model σ) (top0 : Pins) (init : σ) (junk : Nat → Nat → Int) :
    Sim σ :=
  session m top0 init (assembleProgram junk assembly).program

/-- The control pins of the model: `rst`, `service_mode`, `program_memory_rst` and
`program_memory_write_enable`, in this order. -/
def Pins.control (p : Pins) : Nat × Nat × Nat × Nat :=
  (p.rst, p.service_mode, p.program_memory_rst, p.program_memory_write_enable)

/-- The two entries that one clock period adds to the evaluation history, when the pins
other than `clk` are those of `q` and the model is in the state `prev`. -/
def periodLog {σ : Type} (m : Model σ) (q : Pins) (prev : σ) : List (Pins × σ) :=
  [({ q with clk := 1 }, m.eval { q with clk := 1 } prev),
   ({ q with clk := 0 }, m.eval { q with clk := 0 } (m.eval { q with clk := 1 } prev))]

/-- In the evaluation history `log`, the clock period number `p` (counted from 0) consists
of two evaluations: the first with the pins `q` and `clk = 1`, from the model state `prev`,
the second with the pins `q` and `clk = 0`, from the state the first one produced. -/
def Period {σ : Type} (m : Model σ) (log : List (Pins × σ)) (p : Nat) (q : Pins)
    (prev : σ) : Prop :=
  log[2 * p]? = some ({ q with clk := 1 }, m.eval { q with clk := 1 } prev) ∧
  log[2 * p + 1]?
    = some ({ q with clk := 0 }, m.eval { q with clk := 0 } (m.eval { q with clk := 1 } prev))

/-- The value of bits 7-4 of the words assembled for the mnemonic `M`: the opcode the
table gives `M`, and 0 for `NOP`, whose word is built without the table value. -/
def opcodeNibble (M : String) : Int :=
  if M = "NOP" then 0 else ((opcodeMap.lookup M).getD ⟨0⟩).val

/-- A toy model for the examples: its state is the data-memory address seen by the last
evaluation, its output pin shows ten times that address. -/
def demoModel : Model Nat :=
  ⟨fun p _ => p.data_memory_address, fun s => 10 * s⟩

/-- Initial pins for the examples: all zero but the data-memory address, which is 7. -/
def demoPins : Pins :=
  ⟨0, 0, 0, 0, 0, 0, 0, 7⟩

/-! ## Lemmas on masks and packing -/

theorem ldiff_mask (k n : Nat) : Nat.ldiff (2 ^ k - 1) n = 2 ^ k - 1 - n % 2 ^ k := by
  apply Nat.eq_of_testBit_eq
  intro i
  have h : n % 2 ^ k < 2 ^ k := Nat.mod_lt _ (by positivity)
  have e : 2 ^ k - 1 - n % 2 ^ k = 2 ^ k - (n % 2 ^ k + 1) := by omega
  rw [e, Nat.testBit_two_pow_sub_succ h, Nat.testBit_ldiff, Nat.testBit_two_pow_sub_one,
    Nat.testBit_mod_two_pow]
  cases decide (i < k) <;> simp

theorem land_one (x : Int) : x &&& 1 = x % 2 := by
  cases x with
  | ofNat n =>
    show ((n &&& 1 : Nat) : Int) = ((n : Nat) : Int) % 2
    have h : n &&& 1 = n % 2 := Nat.and_pow_two_sub_one_eq_mod n 1
    rw [h]
    omega
  | negSucc n =>
    show ((Nat.ldiff 1 n : Nat) : Int) = _
    have h : Nat.ldiff 1 n = 1 - n % 2 := ldiff_mask 1 n
    rw [h, Int.negSucc_eq]
    omega

theorem land_three (x : Int) : x &&& 3 = x % 4 := by
  cases x with
  | ofNat n =>
    show ((n &&& 3 : Nat) : Int) = ((n : Nat) : Int) % 4
    have h : n &&& 3 = n % 4 := Nat.and_pow_two_sub_one_eq_mod n 2
    rw [h]
    omega
  | negSucc n =>
    show ((Nat.ldiff 3 n : Nat) : Int) = _
    have h : Nat.ldiff 3 n = 3 - n % 4 := ldiff_mask 2 n
    rw [h, Int.negSucc_eq]
    omega

theorem land_seven (x : Int) : x &&& 7 = x % 8 := by
  cases x with
  | ofNat n =>
    show ((n &&& 7 : Nat) : Int) = ((n : Nat) : Int) % 8
    have h : n &&& 7 = n % 8 := Nat.and_pow_two_sub_one_eq_mod n 3
    rw [h]
    omega
  | negSucc n =>
    show ((Nat.ldiff 7 n : Nat) : Int) = _
    have h : Nat.ldiff 7 n = 7 - n % 8 := ldiff_mask 3 n
    rw [h, Int.negSucc_eq]
    omega

theorem land_fifteen (x : Int) : x &&& 15 = x % 16 := by
  cases x with
  | ofNat n =>
    show ((n &&& 15 : Nat) : Int) = ((n : Nat) : Int) % 16
    have h : n &&& 15 = n % 16 := Nat.and_pow_two_sub_one_eq_mod n 4
    rw [h]
    omega
  | negSucc n =>
    show ((Nat.ldiff 15 n : Nat) : Int) = _
    have h : Nat.ldiff 15 n = 15 - n % 16 := ldiff_mask 4 n
    rw [h, Int.negSucc_eq]
    omega

/-- Packing of the ALU shape: four fields in disjoint bit positions add up. -/
theorem pack_alu (o d a b : Int) (ho : 0 ≤ o ∧ o < 16) (hd : 0 ≤ d ∧ d < 2)
    (ha : 0 ≤ a ∧ a < 2) (hb : 0 ≤ b ∧ b < 4) :
    (o <<< 4) ||| (d <<< 3) ||| (a <<< 2) ||| b = o * 16 + d * 8 + a * 4 + b := by
  obtain ⟨ho0, ho1⟩ := ho
  obtain ⟨hd0, hd1⟩ := hd
  obtain ⟨ha0, ha1⟩ := ha
  obtain ⟨hb0, hb1⟩ := hb
  interval_cases o <;> interval_cases d <;> interval_cases a <;> interval_cases b <;> rfl

/-- Packing of the two-field shapes (memory, branch, compare). -/
theorem pack_two (o a b : Int) (ho : 0 ≤ o ∧ o < 16) (ha : 0 ≤ a ∧ a < 4)
    (hb : 0 ≤ b ∧ b < 4) :
    (o <<< 4) ||| (a <<< 2) ||| b = o * 16 + a * 4 + b := by
  obtain ⟨ho0, ho1⟩ := ho
  obtain ⟨ha0, ha1⟩ := ha
  obtain ⟨hb0, hb1⟩ := hb
  interval_cases o <;> interval_cases a <;> interval_cases b <;> rfl

/-- Packing of the move shape. -/
theorem pack_move (o r : Int) (ho : 0 ≤ o ∧ o < 16) (hr : 0 ≤ r ∧ r < 8) :
    (o <<< 4) ||| (r <<< 1) = o * 16 + r * 2 := by
  obtain ⟨ho0, ho1⟩ := ho
  obtain ⟨hr0, hr1⟩ := hr
  interval_cases o <;> interval_cases r <;> rfl

theorem enumerator_range (op : Opcode) (h : op ∈ Opcode.enumerators) :
    0 ≤ op.val ∧ op.val < 16 := by
  simp only [Opcode.enumerators, List.mem_cons, List.mem_singleton, List.not_mem_nil,
    or_false] at h
  rcases h with h | h | h | h | h | h | h | h | h | h | h | h | h | h | h | h <;>
    subst h <;> decide

theorem alu_enumerator (op : Opcode) (h : op ∈ Opcode.alu) : op ∈ Opcode.enumerators := by
  simp only [Opcode.alu, List.mem_cons, List.mem_singleton, List.not_mem_nil, or_false] at h
  rcases h with h | h | h | h | h | h | h | h | h | h <;> subst h <;> decide

theorem makeALUOP_sum (op : Opcode) (h : op ∈ Opcode.enumerators) (rd ra rb : Int) :
    makeALUOP op rd ra rb = op.val * 16 + (rd % 2) * 8 + (ra % 2) * 4 + rb % 4 := by
  unfold makeALUOP
  rw [land_one, land_one, land_three]
  exact pack_alu _ _ _ _ (enumerator_range op h) ⟨by omega, by omega⟩ ⟨by omega, by omega⟩
    ⟨by omega, by omega⟩

theorem makeLOAD_sum (reg addr : Int) :
    makeLOAD reg addr = 10 * 16 + (reg % 4) * 4 + addr % 4 := by
  unfold makeLOAD
  rw [land_three, land_three]
  exact pack_two _ _ _ (by decide) ⟨by omega, by omega⟩ ⟨by omega, by omega⟩

theorem makeSTOR_sum (rAddr addr : Int) :
    makeSTOR rAddr addr = 11 * 16 + (rAddr % 4) * 4 + addr % 4 := by
  unfold makeSTOR
  rw [land_three, land_three]
  exact pack_two _ _ _ (by decide) ⟨by omega, by omega⟩ ⟨by omega, by omega⟩

theorem makeB_sum (condition reg_w_addr : Int) :
    makeB condition reg_w_addr = 13 * 16 + (condition % 4) * 4 + reg_w_addr % 4 := by
  unfold makeB
  rw [land_three, land_three]
  exact pack_two _ _ _ (by decide) ⟨by omega, by omega⟩ ⟨by omega, by omega⟩

theorem makeCMP_sum (op1 op2 : Int) :
    makeCMP op1 op2 = 12 * 16 + (op1 % 4) * 4 + op2 % 4 := by
  unfold makeCMP
  rw [land_three, land_three]
  exact pack_two _ _ _ (by decide) ⟨by omega, by omega⟩ ⟨by omega, by omega⟩

theorem makeMOV1_sum (rd : Int) : makeMOV1 rd = 14 * 16 + (rd % 8) * 2 := by
  unfold makeMOV1
  rw [land_seven]
  exact pack_move _ _ (by decide) ⟨by omega, by omega⟩

theorem makeMOV2_sum (rs : Int) : makeMOV2 rs = 15 * 16 + (rs % 8) * 2 := by
  unfold makeMOV2
  rw [land_seven]
  exact pack_move _ _ (by decide) ⟨by omega, by omega⟩

theorem shr_div (w : Int) (k : Nat) : w >>> (k : Int) = w / 2 ^ k := by
  have h : w >>> (k : Int) = w >>> k := by
    cases w with
    | ofNat m => exact Int.shiftRight_coe_nat m k
    | negSucc m => exact Int.shiftRight_negSucc m k
  rw [h, Int.shiftRight_eq_div_pow]
  norm_cast

theorem shr4 (w : Int) : w >>> 4 = w / 16 := shr_div w 4

theorem shr3 (w : Int) : w >>> 3 = w / 8 := shr_div w 3

theorem shr2 (w : Int) : w >>> 2 = w / 4 := shr_div w 2

theorem shr1 (w : Int) : w >>> 1 = w / 2 := shr_div w 1

/-! ## The encoders: round trip, packing, range -/

/-- C1. Encode/decode round trip: bit-slicing the encoded word recovers the opcode and
each operand modulo its field capacity, for every operand value (negative and
out-of-range ones included): the ALU shape for each of the ten ALU opcodes, the
two-field shapes of `makeLOAD`, `makeSTOR`, `makeB`, `makeCMP`, and the move shape of
`makeMOV1`, `makeMOV2`. -/
theorem encode_decode_roundtrip :
    (∀ op ∈ Opcode.alu, ∀ rd ra rb : Int,
      (makeALUOP op rd ra rb >>> 4) &&& 15 = op.val ∧
      (makeALUOP op rd ra rb >>> 3) &&& 1 = rd % 2 ∧
      (makeALUOP op rd ra rb >>> 2) &&& 1 = ra % 2 ∧
      makeALUOP op rd ra rb &&& 3 = rb % 4) ∧
    (∀ a b : Int,
      (makeLOAD a b >>> 4) &&& 15 = LDUR.val ∧
      (makeLOAD a b >>> 2) &&& 3 = a % 4 ∧ makeLOAD a b &&& 3 = b % 4) ∧
    (∀ a b : Int,
      (makeSTOR a b >>> 4) &&& 15 = STOR.val ∧
      (makeSTOR a b >>> 2) &&& 3 = a % 4 ∧ makeSTOR a b &&& 3 = b % 4) ∧
    (∀ a b : Int,
      (makeB a b >>> 4) &&& 15 = B.val ∧
      (makeB a b >>> 2) &&& 3 = a % 4 ∧ makeB a b &&& 3 = b % 4) ∧
    (∀ a b : Int,
      (makeCMP a b >>> 4) &&& 15 = CMP.val ∧
      (makeCMP a b >>> 2) &&& 3 = a % 4 ∧ makeCMP a b &&& 3 = b % 4) ∧
    (∀ r : Int, (makeMOV1 r >>> 4) &&& 15 = MOV1.val ∧ (makeMOV1 r >>> 1) &&& 7 = r % 8) ∧
    (∀ r : Int, (makeMOV2 r >>> 4) &&& 15 = MOV2.val ∧ (makeMOV2 r >>> 1) &&& 7 = r % 8) := by
  refine ⟨?_, ?_, ?_, ?_, ?_, ?_, ?_⟩
  · intro op hop rd ra rb
    have hr := enumerator_range op (alu_enumerator op hop)
    rw [makeALUOP_sum op (alu_enumerator op hop), shr4, shr3, shr2, land_fifteen, land_one,
      land_one, land_three]
    refine ⟨?_, ?_, ?_, ?_⟩ <;> omega
  · intro a b
    rw [makeLOAD_sum, shr4, shr2, land_fifteen, land_three, land_three]
    refine ⟨?_, ?_, ?_⟩
    · show _ = (10 : Int)
      omega
    · omega
    · omega
  · intro a b
    rw [makeSTOR_sum, shr4, shr2, land_fifteen, land_three, land_three]
    refine ⟨?_, ?_, ?_⟩
    · show _ = (11 : Int)
      omega
    · omega
    · omega
  · intro a b
    rw [makeB_sum, shr4, shr2, land_fifteen, land_three, land_three]
    refine ⟨?_, ?_, ?_⟩
    · show _ = (13 : Int)
      omega
    · omega
    · omega
  · intro a b
    rw [makeCMP_sum, shr4, shr2, land_fifteen, land_three, land_three]
    refine ⟨?_, ?_, ?_⟩
    · show _ = (12 : Int)
      omega
    · omega
    · omega
  · intro r
    rw [makeMOV1_sum, shr4, shr1, land_fifteen, land_seven]
    refine ⟨?_, ?_⟩
    · show _ = (14 : Int)
      omega
    · omega
  · intro r
    rw [makeMOV2_sum, shr4, shr1, land_fifteen, land_seven]
    refine ⟨?_, ?_⟩
    · show _ = (15 : Int)
      omega
    · omega

/-- Witness of C1: `makeALUOP(ADD, 1, 1, 5)` decodes to opcode `ADD`, `rd = 1`, `ra = 1`
and `rb = 1` (5 mod 4), not 5. -/
theorem encode_decode_roundtrip_witness :
    (makeALUOP ADD 1 1 5 >>> 4) &&& 15 = ADD.val ∧
    (makeALUOP ADD 1 1 5 >>> 3) &&& 1 = 1 ∧
    (makeALUOP ADD 1 1 5 >>> 2) &&& 1 = 1 ∧
    makeALUOP ADD 1 1 5 &&& 3 = 1 ∧ makeALUOP ADD 1 1 5 &&& 3 ≠ 5 := by
  have h := encode_decode_roundtrip.1 ADD (by decide) 1 1 5
  refine ⟨h.1, h.2.1, h.2.2.1, h.2.2.2, ?_⟩
  rw [h.2.2.2]
  decide

/-- C2. ALU-shape packing: for each of the ten ALU opcodes and all integers `rd`, `ra`,
`rb`, the word is `(op<<4) | ((rd&1)<<3) | ((ra&1)<<2) | (rb&3)`, and the four fields do
not overlap: the OR equals `op*16 + (rd mod 2)*8 + (ra mod 2)*4 + (rb mod 4)`, so the
opcode occupies bits 7-4, `rd` bit 3, `ra` bit 2 and `rb` bits 1-0. -/
theorem alu_packing (op : Opcode) (hop : op ∈ Opcode.alu) (rd ra rb : Int) :
    makeALUOP op rd ra rb
        = (op.val <<< 4) ||| ((rd &&& 1) <<< 3) ||| ((ra &&& 1) <<< 2) ||| (rb &&& 3) ∧
    makeALUOP op rd ra rb = op.val * 16 + (rd % 2) * 8 + (ra % 2) * 4 + rb % 4 ∧
    makeALUOP op rd ra rb / 16 = op.val ∧
    makeALUOP op rd ra rb / 8 % 2 = rd % 2 ∧
    makeALUOP op rd ra rb / 4 % 2 = ra % 2 ∧
    makeALUOP op rd ra rb % 4 = rb % 4 := by
  have hr := enumerator_range op (alu_enumerator op hop)
  have hs := makeALUOP_sum op (alu_enumerator op hop) rd ra rb
  refine ⟨rfl, hs, ?_, ?_, ?_, ?_⟩ <;> omega

/-- Witness of C2: `makeALUOP(SUBI, -1, 2, 7)` is `0x3B`: opcode 3, `rd` bit set (-1 is
odd), `ra` bit clear, `rb = 3`. -/
theorem alu_packing_witness : makeALUOP SUBI (-1) 2 7 = 0x3B := by
  have h := (alu_packing SUBI (by decide) (-1) 2 7).2.1
  rw [h]
  decide

/-- C3. Non-ALU packing: the memory, branch and compare words are
`(opcode<<4) | ((a&3)<<2) | (b&3)` and the move words `(opcode<<4) | ((r&7)<<1)`, with
non-overlapping fields; a load and a store word with the same operands differ only in the
opcode nibble, and bit 0 of every move-shape word is zero. -/
theorem non_alu_packing (a b r : Int) :
    (makeLOAD a b = (LDUR.val <<< 4) ||| ((a &&& 3) <<< 2) ||| (b &&& 3) ∧
      makeLOAD a b = 0xA0 + (a % 4) * 4 + b % 4) ∧
    (makeSTOR a b = (STOR.val <<< 4) ||| ((a &&& 3) <<< 2) ||| (b &&& 3) ∧
      makeSTOR a b = 0xB0 + (a % 4) * 4 + b % 4) ∧
    (makeB a b = (B.val <<< 4) ||| ((a &&& 3) <<< 2) ||| (b &&& 3) ∧
      makeB a b = 0xD0 + (a % 4) * 4 + b % 4) ∧
    (makeCMP a b = (CMP.val <<< 4) ||| ((a &&& 3) <<< 2) ||| (b &&& 3) ∧
      makeCMP a b = 0xC0 + (a % 4) * 4 + b % 4) ∧
    (makeMOV1 r = (MOV1.val <<< 4) ||| ((r &&& 7) <<< 1) ∧
      makeMOV1 r = 0xE0 + (r % 8) * 2) ∧
    (makeMOV2 r = (MOV2.val <<< 4) ||| ((r &&& 7) <<< 1) ∧
      makeMOV2 r = 0xF0 + (r % 8) * 2) ∧
    (makeLOAD a b &&& 15 = makeSTOR a b &&& 15 ∧
      (makeLOAD a b >>> 4) &&& 15 = LDUR.val ∧ (makeSTOR a b >>> 4) &&& 15 = STOR.val) ∧
    (makeMOV1 r &&& 1 = 0 ∧ makeMOV2 r &&& 1 = 0) := by
  have h1 := makeLOAD_sum a b
  have h2 := makeSTOR_sum a b
  have h3 := makeB_sum a b
  have h4 := makeCMP_sum a b
  have h5 := makeMOV1_sum r
  have h6 := makeMOV2_sum r
  refine ⟨⟨rfl, ?_⟩, ⟨rfl, ?_⟩, ⟨rfl, ?_⟩, ⟨rfl, ?_⟩, ⟨rfl, ?_⟩, ⟨rfl, ?_⟩, ⟨?_, ?_, ?_⟩, ?_, ?_⟩
  · omega
  · omega
  · omega
  · omega
  · omega
  · omega
  · rw [land_fifteen, land_fifteen]
    omega
  · rw [shr4, land_fifteen]
    show _ = (10 : Int)
    omega
  · rw [shr4, land_fifteen]
    show _ = (11 : Int)
    omega
  · rw [land_one]
    omega
  · rw [land_one]
    omega

/-- C4. The encoder is total and always yields an 8-bit word: for each of the sixteen
opcodes and every operand value, each encoder returns a word `w` with `0 ≤ w ≤ 255`. -/
theorem encoder_range :
    (0 ≤ makeNOP ∧ makeNOP ≤ 255) ∧
    (∀ op ∈ Opcode.enumerators, ∀ rd ra rb : Int,
      0 ≤ makeALUOP op rd ra rb ∧ makeALUOP op rd ra rb ≤ 255) ∧
    (∀ a b : Int, 0 ≤ makeLOAD a b ∧ makeLOAD a b ≤ 255) ∧
    (∀ a b : Int, 0 ≤ makeSTOR a b ∧ makeSTOR a b ≤ 255) ∧
    (∀ a b : Int, 0 ≤ makeB a b ∧ makeB a b ≤ 255) ∧
    (∀ a b : Int, 0 ≤ makeCMP a b ∧ makeCMP a b ≤ 255) ∧
    (∀ r : Int, 0 ≤ makeMOV1 r ∧ makeMOV1 r ≤ 255) ∧
    (∀ r : Int, 0 ≤ makeMOV2 r ∧ makeMOV2 r ≤ 255) := by
  refine ⟨by decide, ?_, ?_, ?_, ?_, ?_, ?_, ?_⟩
  · intro op hop rd ra rb
    have hr := enumerator_range op hop
    rw [makeALUOP_sum op hop]
    constructor <;> omega
  · intro a b
    rw [makeLOAD_sum]
    constructor <;> omega
  · intro a b
    rw [makeSTOR_sum]
    constructor <;> omega
  · intro a b
    rw [makeB_sum]
    constructor <;> omega
  · intro a b
    rw [makeCMP_sum]
    constructor <;> omega
  · intro r
    rw [makeMOV1_sum]
    constructor <;> omega
  · intro r
    rw [makeMOV2_sum]
    constructor <;> omega

/-- Witness of C4: with the extreme 32-bit operands, `makeALUOP(MOV2, INT_MIN, -1,
INT_MAX)` is still an 8-bit word. -/
theorem encoder_range_witness :
    0 ≤ makeALUOP MOV2 INT_MIN (-1) INT_MAX ∧ makeALUOP MOV2 INT_MIN (-1) INT_MAX ≤ 255 :=
  encoder_range.2.1 MOV2 (by decide) INT_MIN (-1) INT_MAX

/-! ## Characters and stream extraction -/

theorem isspace_toupper (c : Char) : isspace (toupper c) = isspace c := by
  by_cases h : 97 ≤ c.toNat ∧ c.toNat ≤ 122
  · have hc : c = Char.ofNat c.toNat := (Char.ofNat_toNat c).symm
    obtain ⟨h1, h2⟩ := h
    generalize c.toNat = n at hc h1 h2
    subst hc
    interval_cases n <;> rfl
  · have e : toupper c = c := by
      unfold toupper Char.toUpper
      simp only [ge_iff_le]
      rw [if_neg h]
    rw [e]

theorem dropWhile_space_append (pre l : List Char) (hpre : ∀ c ∈ pre, isspace c = true) :
    (pre ++ l).dropWhile isspace = l.dropWhile isspace := by
  induction pre with
  | nil => rfl
  | cons c pre ih =>
    have hc : isspace c = true := hpre c (List.mem_cons_self _ _)
    simp only [List.cons_append, List.dropWhile_cons, hc, if_true]
    exact ih (fun d hd => hpre d (List.mem_cons_of_mem _ hd))

/-- The string stored by the mnemonic extraction is the first token of the line. -/
theorem extractString_snd (line : String) :
    ((IStream.ofString line).extractString "").2 = firstToken line := by
  unfold IStream.extractString IStream.ofString firstToken IStream.good
  simp only [Bool.not_false, Bool.and_self, if_true]
  cases h : List.dropWhile isspace line.data with
  | nil => rfl
  | cons c cs => rfl

/-- The mnemonic that `assemble` looks up is `mnemonicOf line`. -/
theorem mnemonic_eq (line : String) :
    (⟨((IStream.ofString line).extractString "").2.data.map toupper⟩ : String)
      = mnemonicOf line := by
  rw [extractString_snd]
  rfl

theorem takeWhile_run (p : Char → Bool) (run rest : List Char)
    (hrun : ∀ c ∈ run, p c = true)
    (hrest : rest = [] ∨ ∃ c r, rest = c :: r ∧ p c = false) :
    (run ++ rest).takeWhile p = run := by
  induction run with
  | nil =>
    rcases hrest with h | ⟨c, r, h, hc⟩
    · subst h
      rfl
    · subst h
      simp [List.takeWhile_cons, hc]
  | cons c run ih =>
    have hc : p c = true := hrun c (List.mem_cons_self _ _)
    simp only [List.cons_append, List.takeWhile_cons, hc, if_true]
    rw [ih (fun d hd => hrun d (List.mem_cons_of_mem _ hd))]

theorem dropWhile_run (p : Char → Bool) (run rest : List Char)
    (hrun : ∀ c ∈ run, p c = true)
    (hrest : rest = [] ∨ ∃ c r, rest = c :: r ∧ p c = false) :
    (run ++ rest).dropWhile p = rest := by
  induction run with
  | nil =>
    rcases hrest with h | ⟨c, r, h, hc⟩
    · subst h
      rfl
    · subst h
      simp [List.dropWhile_cons, hc]
  | cons c run ih =>
    have hc : p c = true := hrun c (List.mem_cons_self _ _)
    simp only [List.cons_append, List.dropWhile_cons, hc, if_true]
    exact ih (fun d hd => hrun d (List.mem_cons_of_mem _ hd))

/-- Extraction of a token that is present: the token is stored and the stream is left
right after it. -/
theorem extractString_token (pre tok rest : List Char) (str : String)
    (hpre : ∀ c ∈ pre, isspace c = true) (hne : tok ≠ [])
    (htok : ∀ c ∈ tok, isspace c = false)
    (hrest : rest = [] ∨ ∃ c r, rest = c :: r ∧ isspace c = true) :
    IStream.extractString ⟨pre ++ (tok ++ rest), false, false⟩ str
      = (⟨rest, rest.isEmpty, false⟩, ⟨tok⟩) := by
  have ht : ∀ c ∈ tok, (fun x => !isspace x) c = true := by
    intro c hc
    simp [htok c hc]
  have hr : rest = [] ∨ ∃ c r, rest = c :: r ∧ (fun x => !isspace x) c = false := by
    rcases hrest with h | ⟨c, r, h, hc⟩
    · exact Or.inl h
    · exact Or.inr ⟨c, r, h, by simp [hc]⟩
  have hT := takeWhile_run _ tok rest ht hr
  have hD := dropWhile_run _ tok rest ht hr
  unfold IStream.extractString IStream.good
  simp only [Bool.not_false, Bool.and_self, if_true]
  rw [dropWhile_space_append pre _ hpre]
  cases tok with
  | nil => exact absurd rfl hne
  | cons c t =>
    have hc : isspace c = false := htok c (List.mem_cons_self _ _)
    have e : List.dropWhile isspace (c :: t ++ rest) = c :: (t ++ rest) := by
      simp [List.dropWhile_cons, hc]
    have hT2 : List.takeWhile (fun x => !isspace x) (c :: (t ++ rest)) = c :: t := hT
    have hD2 : List.dropWhile (fun x => !isspace x) (c :: (t ++ rest)) = rest := hD
    rw [e]
    dsimp only
    rw [hT2, hD2]

/-- Extraction from a blank stream: nothing is stored, `eofbit` and `failbit` are set. -/
theorem extractString_blank (pre : List Char) (str : String)
    (hpre : ∀ c ∈ pre, isspace c = true) :
    IStream.extractString ⟨pre, false, false⟩ str = (⟨[], true, true⟩, str) := by
  have h := dropWhile_space_append pre [] hpre
  simp only [List.append_nil, List.dropWhile_nil] at h
  unfold IStream.extractString IStream.good
  simp only [Bool.not_false, Bool.and_self, if_true, h]

theorem isdigit_not_space (c : Char) (h : isdigit c = true) : isspace c = false := by
  unfold isdigit at h
  unfold isspace
  simp only [Bool.and_eq_true, decide_eq_true_eq] at h
  simp only [Bool.or_eq_false_iff, decide_eq_false_iff_not, Bool.and_eq_false_imp, decide_eq_true_eq]
  omega

theorem isdigit_not_sign (c : Char) (h : isdigit c = true) : ¬ (c = '-' ∨ c = '+') := by
  rintro (e | e) <;> subst e <;> exact absurd h (by decide)

/-- Extraction of an unsigned decimal number that fits an `int`. -/
theorem extractInt_digits (pre ds rest : List Char) (n : Int)
    (hpre : ∀ c ∈ pre, isspace c = true) (hne : ds ≠ [])
    (hds : ∀ c ∈ ds, isdigit c = true)
    (hrest : rest = [] ∨ ∃ c r, rest = c :: r ∧ isdigit c = false)
    (hv : (IStream.digitsValue ds : Int) ≤ INT_MAX) :
    IStream.extractInt ⟨pre ++ (ds ++ rest), false, false⟩ n
      = (⟨rest, rest.isEmpty, false⟩, (IStream.digitsValue ds : Int)) := by
  have hT := takeWhile_run isdigit ds rest hds hrest
  have hD := dropWhile_run isdigit ds rest hds hrest
  unfold IStream.extractInt IStream.good
  simp only [Bool.not_false, Bool.and_self, if_true]
  rw [dropWhile_space_append pre _ hpre]
  cases ds with
  | nil => exact absurd rfl hne
  | cons c t =>
    have hc : isdigit c = true := hds c (List.mem_cons_self _ _)
    have e : List.dropWhile isspace (c :: t ++ rest) = c :: (t ++ rest) := by
      simp [List.dropWhile_cons, isdigit_not_space c hc]
    have hT2 : List.takeWhile isdigit (c :: (t ++ rest)) = c :: t := hT
    have hD2 : List.dropWhile isdigit (c :: (t ++ rest)) = rest := hD
    have hs : ¬ (c = '-' ∨ c = '+') := isdigit_not_sign c hc
    have hm : ¬ (c = '-') := fun h => hs (Or.inl h)
    have h1 : ¬ ((IStream.digitsValue (c :: t) : Int) < INT_MIN) := by
      have : INT_MIN < 0 := by decide
      omega
    have h2 : ¬ (INT_MAX < (IStream.digitsValue (c :: t) : Int)) := by omega
    rw [e]
    dsimp only
    rw [if_neg hs, hT2, hD2]
    simp only [List.isEmpty_cons, Bool.false_eq_true, if_false, hm, decide_False, h1, h2]

/-- Extraction of a negative decimal number that fits an `int`. -/
theorem extractInt_neg_digits (pre ds rest : List Char) (n : Int)
    (hpre : ∀ c ∈ pre, isspace c = true) (hne : ds ≠ [])
    (hds : ∀ c ∈ ds, isdigit c = true)
    (hrest : rest = [] ∨ ∃ c r, rest = c :: r ∧ isdigit c = false)
    (hv : INT_MIN ≤ -(IStream.digitsValue ds : Int)) :
    IStream.extractInt ⟨pre ++ ('-' :: (ds ++ rest)), false, false⟩ n
      = (⟨rest, rest.isEmpty, false⟩, -(IStream.digitsValue ds : Int)) := by
  have hT := takeWhile_run isdigit ds rest hds hrest
  have hD := dropWhile_run isdigit ds rest hds hrest
  unfold IStream.extractInt IStream.good
  simp only [Bool.not_false, Bool.and_self, if_true]
  rw [dropWhile_space_append pre _ hpre]
  have e : List.dropWhile isspace ('-' :: (ds ++ rest)) = '-' :: (ds ++ rest) := by
    rw [List.dropWhile_cons]
    rfl
  have h1 : ¬ (-(IStream.digitsValue ds : Int) < INT_MIN) := by omega
  have h2 : ¬ (INT_MAX < -(IStream.digitsValue ds : Int)) := by
    have : 0 < INT_MAX := by decide
    omega
  have h3 : ds.isEmpty = false := by
    cases ds with
    | nil => exact absurd rfl hne
    | cons c t => rfl
  rw [e]
  dsimp only
  rw [if_pos (Or.inl rfl), hT, hD]
  simp only [h3, Bool.false_eq_true, if_false, decide_True, if_true, h1, h2]

theorem digitChar_isdigit (k : Nat) (h : k < 10) :
    isdigit (Nat.digitChar k) = true ∧ (Nat.digitChar k).toNat - 48 = k := by
  interval_cases k <;> exact ⟨rfl, rfl⟩

theorem toDigitsCore_digits (fuel : Nat) : ∀ (m : Nat) (acc : List Char), m < fuel →
    (∀ c ∈ acc, isdigit c = true) →
    (∀ c ∈ Nat.toDigitsCore 10 fuel m acc, isdigit c = true) ∧
    Nat.toDigitsCore 10 fuel m acc ≠ [] ∧
    (Nat.toDigitsCore 10 fuel m acc).foldl (fun a c => 10 * a + (c.toNat - 48)) 0
      = acc.foldl (fun a c => 10 * a + (c.toNat - 48)) m := by
  induction fuel with
  | zero =>
    intro m acc h
    omega
  | succ fuel ih =>
    intro m acc hm hacc
    have hd := digitChar_isdigit (m % 10) (Nat.mod_lt _ (by decide))
    have hacc2 : ∀ c ∈ Nat.digitChar (m % 10) :: acc, isdigit c = true := by
      intro c hc
      rcases List.mem_cons.1 hc with h | h
      · rw [h]
        exact hd.1
      · exact hacc c h
    unfold Nat.toDigitsCore
    by_cases h0 : m / 10 = 0
    · simp only [h0, if_true]
      refine ⟨hacc2, List.cons_ne_nil _ _, ?_⟩
      simp only [List.foldl_cons, hd.2]
      have : 10 * 0 + m % 10 = m := by omega
      rw [this]
    · simp only [h0, if_false]
      have hlt : m / 10 < fuel := by omega
      obtain ⟨i1, i2, i3⟩ := ih (m / 10) (Nat.digitChar (m % 10) :: acc) hlt hacc2
      refine ⟨i1, i2, ?_⟩
      rw [i3]
      simp only [List.foldl_cons, hd.2]
      have : 10 * (m / 10) + m % 10 = m := by omega
      rw [this]

theorem toDigits_digits (m : Nat) :
    (∀ c ∈ Nat.toDigits 10 m, isdigit c = true) ∧ Nat.toDigits 10 m ≠ [] ∧
    IStream.digitsValue (Nat.toDigits 10 m) = m := by
  have h := toDigitsCore_digits (m + 1) m [] (by omega) (by simp)
  exact ⟨h.1, h.2.1, h.2.2⟩

/-- Reading back the decimal text of an `int` value gives that value and leaves the
stream right after the text. -/
theorem extractInt_toString (z : Int) (hz : InIntRange z) (pre rest : List Char) (n : Int)
    (hpre : ∀ c ∈ pre, isspace c = true)
    (hrest : rest = [] ∨ ∃ c r, rest = c :: r ∧ isdigit c = false) :
    IStream.extractInt ⟨pre ++ ((toString z).data ++ rest), false, false⟩ n
      = (⟨rest, rest.isEmpty, false⟩, z) := by
  obtain ⟨hlo, hhi⟩ := hz
  cases z with
  | ofNat m =>
    obtain ⟨h1, h2, h3⟩ := toDigits_digits m
    have e : (toString (Int.ofNat m)).data = Nat.toDigits 10 m := rfl
    have hv : (IStream.digitsValue (Nat.toDigits 10 m) : Int) ≤ INT_MAX := by
      rw [h3]
      exact hhi
    rw [e, extractInt_digits pre _ rest n hpre h2 h1 hrest hv, h3]
    rfl
  | negSucc m =>
    obtain ⟨h1, h2, h3⟩ := toDigits_digits (m + 1)
    have e : (toString (Int.negSucc m)).data = '-' :: Nat.toDigits 10 (m + 1) := rfl
    have hv : INT_MIN ≤ -(IStream.digitsValue (Nat.toDigits 10 (m + 1)) : Int) := by
      rw [h3]
      have := Int.negSucc_eq m
      push_cast
      omega
    rw [e, List.cons_append, extractInt_neg_digits pre _ rest n hpre h2 h1 hrest hv, h3]
    have := Int.negSucc_eq m
    push_cast
    rw [this]

theorem mnemonics_token (M : String) (h : M ∈ mnemonics) :
    M.data ≠ [] ∧ (∀ c ∈ M.data, isspace c = false) ∧
    (⟨M.data.map toupper⟩ : String) = M := by
  simp only [mnemonics, List.mem_cons, List.mem_singleton, List.not_mem_nil, or_false] at h
  rcases h with h | h | h | h | h | h | h | h | h | h | h | h | h | h | h | h | h <;>
    subst h <;> exact ⟨by decide, by decide, by decide⟩

theorem opcodeMap_mnemonics (M : String) (opc : Opcode) (h : (M, opc) ∈ opcodeMap) :
    M ∈ mnemonics := by
  simp only [opcodeMap, List.mem_cons, Prod.mk.injEq, List.mem_singleton, List.not_mem_nil,
    or_false] at h
  rcases h with h | h | h | h | h | h | h | h | h | h | h | h | h | h | h | h | h <;>
    rw [h.1] <;> decide

/-- A line that starts with a table mnemonic followed by a blank: the mnemonic is found and
the stream is left at the blank. -/
theorem mnemonic_line (M : String) (hM : M ∈ mnemonics) (line : String) (rest : List Char)
    (hd : line.data = M.data ++ ' ' :: rest) :
    mnemonicOf line = M ∧
    ((IStream.ofString line).extractString "").1 = ⟨' ' :: rest, false, false⟩ := by
  obtain ⟨h1, h2, h3⟩ := mnemonics_token M hM
  have hx := extractString_token [] M.data (' ' :: rest) "" (by simp) h1 h2
    (Or.inr ⟨' ', rest, rfl, by decide⟩)
  have hs : IStream.ofString line = ⟨[] ++ (M.data ++ ' ' :: rest), false, false⟩ := by
    unfold IStream.ofString
    rw [hd]
    rfl
  constructor
  · unfold mnemonicOf
    rw [← extractString_snd, hs, hx]
    exact h3
  · rw [hs, hx]
    rfl

/-- One operand in decimal, preceded by a blank and followed by the end of the line or by
another blank, is read back exactly. -/
theorem extractInt_operand (z : Int) (hz : InIntRange z) (rest : List Char) (n : Int)
    (hrest : rest = [] ∨ ∃ r, rest = ' ' :: r) :
    IStream.extractInt ⟨' ' :: ((toString z).data ++ rest), false, false⟩ n
      = (⟨rest, rest.isEmpty, false⟩, z) := by
  have h := extractInt_toString z hz [' '] rest n (by decide)
    (by
      rcases hrest with h | ⟨r, h⟩
      · exact Or.inl h
      · exact Or.inr ⟨' ', r, h, by decide⟩)
  exact h

/-! ## Dispatch of `assemble` -/

theorem assemble_alu (junk : Nat → Int) (line M : String) (opc : Opcode) (s : IStream)
    (hM : (M, opc) ∈ opcodeMap) (halu : opc ∈ Opcode.alu) (hm : mnemonicOf line = M)
    (hs : ((IStream.ofString line).extractString "").1 = s) :
    assemble opcodeMap junk line
      = ⟨.ok (makeALUOP opc (s.extractInt (junk 0)).2
            ((s.extractInt (junk 0)).1.extractInt (junk 1)).2
            (((s.extractInt (junk 0)).1.extractInt (junk 1)).1.extractInt (junk 2)).2),
          opcodeMap,
          (((s.extractInt (junk 0)).1.extractInt (junk 1)).1.extractInt (junk 2)).1⟩ := by
  simp only [opcodeMap, List.mem_cons, Prod.mk.injEq, List.mem_singleton, List.not_mem_nil,
    or_false] at hM
  subst hs
  rcases hM with h | h | h | h | h | h | h | h | h | h | h | h | h | h | h | h | h <;>
    obtain ⟨h1, h2⟩ := h <;> subst h1 <;> subst h2 <;>
    first
    | exact absurd halu (by decide)
    | (unfold assemble
       simp only [mnemonic_eq, hm]
       rfl)

theorem assemble_two (junk : Nat → Int) (line : String) (s : IStream)
    (hs : ((IStream.ofString line).extractString "").1 = s) :
    (mnemonicOf line = "LDUR" → assemble opcodeMap junk line
      = ⟨.ok (makeLOAD (s.extractInt (junk 0)).2
            ((s.extractInt (junk 0)).1.extractInt (junk 1)).2),
          opcodeMap, ((s.extractInt (junk 0)).1.extractInt (junk 1)).1⟩) ∧
    (mnemonicOf line = "STOR" → assemble opcodeMap junk line
      = ⟨.ok (makeSTOR (s.extractInt (junk 0)).2
            ((s.extractInt (junk 0)).1.extractInt (junk 1)).2),
          opcodeMap, ((s.extractInt (junk 0)).1.extractInt (junk 1)).1⟩) ∧
    (mnemonicOf line = "B" → assemble opcodeMap junk line
      = ⟨.ok (makeB (s.extractInt (junk 0)).2
            ((s.extractInt (junk 0)).1.extractInt (junk 1)).2),
          opcodeMap, ((s.extractInt (junk 0)).1.extractInt (junk 1)).1⟩) ∧
    (mnemonicOf line = "CMP" → assemble opcodeMap junk line
      = ⟨.ok (makeCMP (s.extractInt (junk 0)).2
            ((s.extractInt (junk 0)).1.extractInt (junk 1)).2),
          opcodeMap, ((s.extractInt (junk 0)).1.extractInt (junk 1)).1⟩) := by
  subst hs
  refine ⟨?_, ?_, ?_, ?_⟩ <;> intro hm <;> unfold assemble <;>
    simp only [mnemonic_eq, hm] <;> rfl

theorem assemble_one (junk : Nat → Int) (line : String) (s : IStream)
    (hs : ((IStream.ofString line).extractString "").1 = s) :
    (mnemonicOf line = "MOV1" → assemble opcodeMap junk line
      = ⟨.ok (makeMOV1 (s.extractInt (junk 0)).2), opcodeMap, (s.extractInt (junk 0)).1⟩) ∧
    (mnemonicOf line = "MOV2" → assemble opcodeMap junk line
      = ⟨.ok (makeMOV2 (s.extractInt (junk 0)).2), opcodeMap, (s.extractInt (junk 0)).1⟩) := by
  subst hs
  refine ⟨?_, ?_⟩ <;> intro hm <;> unfold assemble <;> simp only [mnemonic_eq, hm] <;> rfl

theorem instructionText_three (M : String) (a b c : Int) :
    (instructionText M [a, b, c]).data
      = M.data ++ ' ' :: ((toString a).data ++ ' ' :: ((toString b).data ++
          ' ' :: ((toString c).data ++ []))) := by
  simp [instructionText, String.data_append]

theorem instructionText_two (M : String) (a b : Int) :
    (instructionText M [a, b]).data
      = M.data ++ ' ' :: ((toString a).data ++ ' ' :: ((toString b).data ++ [])) := by
  simp [instructionText, String.data_append]

theorem instructionText_one (M : String) (a : Int) :
    (instructionText M [a]).data = M.data ++ ' ' :: ((toString a).data ++ []) := by
  simp [instructionText, String.data_append]

theorem assemble_text_alu (junk : Nat → Int) (M : String) (opc : Opcode)
    (hM : (M, opc) ∈ opcodeMap) (halu : opc ∈ Opcode.alu) (rd ra rb : Int)
    (hrd : InIntRange rd) (hra : InIntRange ra) (hrb : InIntRange rb) :
    (assemble opcodeMap junk (instructionText M [rd, ra, rb])).result
      = .ok (makeALUOP opc rd ra rb) := by
  obtain ⟨hm, hs⟩ := mnemonic_line M (opcodeMap_mnemonics M opc hM) _ _
    (instructionText_three M rd ra rb)
  rw [assemble_alu junk _ M opc _ hM halu hm hs]
  rw [extractInt_operand rd hrd _ _ (Or.inr ⟨_, rfl⟩)]
  simp only [List.isEmpty_cons]
  rw [extractInt_operand ra hra _ _ (Or.inr ⟨_, rfl⟩)]
  simp only [List.isEmpty_cons]
  rw [extractInt_operand rb hrb _ _ (Or.inl rfl)]

theorem assemble_text_two (junk : Nat → Int) (a b : Int) (ha : InIntRange a)
    (hb : InIntRange b) :
    (assemble opcodeMap junk (instructionText "LDUR" [a, b])).result = .ok (makeLOAD a b) ∧
    (assemble opcodeMap junk (instructionText "STOR" [a, b])).result = .ok (makeSTOR a b) ∧
    (assemble opcodeMap junk (instructionText "B" [a, b])).result = .ok (makeB a b) ∧
    (assemble opcodeMap junk (instructionText "CMP" [a, b])).result = .ok (makeCMP a b) := by
  refine ⟨?_, ?_, ?_, ?_⟩
  · obtain ⟨hm, hs⟩ := mnemonic_line "LDUR" (by decide) _ _ (instructionText_two "LDUR" a b)
    rw [(assemble_two junk _ _ hs).1 hm]
    rw [extractInt_operand a ha _ _ (Or.inr ⟨_, rfl⟩)]
    simp only [List.isEmpty_cons]
    rw [extractInt_operand b hb _ _ (Or.inl rfl)]
  · obtain ⟨hm, hs⟩ := mnemonic_line "STOR" (by decide) _ _ (instructionText_two "STOR" a b)
    rw [(assemble_two junk _ _ hs).2.1 hm]
    rw [extractInt_operand a ha _ _ (Or.inr ⟨_, rfl⟩)]
    simp only [List.isEmpty_cons]
    rw [extractInt_operand b hb _ _ (Or.inl rfl)]
  · obtain ⟨hm, hs⟩ := mnemonic_line "B" (by decide) _ _ (instructionText_two "B" a b)
    rw [(assemble_two junk _ _ hs).2.2.1 hm]
    rw [extractInt_operand a ha _ _ (Or.inr ⟨_, rfl⟩)]
    simp only [List.isEmpty_cons]
    rw [extractInt_operand b hb _ _ (Or.inl rfl)]
  · obtain ⟨hm, hs⟩ := mnemonic_line "CMP" (by decide) _ _ (instructionText_two "CMP" a b)
    rw [(assemble_two junk _ _ hs).2.2.2 hm]
    rw [extractInt_operand a ha _ _ (Or.inr ⟨_, rfl⟩)]
    simp only [List.isEmpty_cons]
    rw [extractInt_operand b hb _ _ (Or.inl rfl)]

theorem assemble_text_one (junk : Nat → Int) (r : Int) (hr : InIntRange r) :
    (assemble opcodeMap junk (instructionText "MOV1" [r])).result = .ok (makeMOV1 r) ∧
    (assemble opcodeMap junk (instructionText "MOV2" [r])).result = .ok (makeMOV2 r) := by
  refine ⟨?_, ?_⟩
  · obtain ⟨hm, hs⟩ := mnemonic_line "MOV1" (by decide) _ _ (instructionText_one "MOV1" r)
    rw [(assemble_one junk _ _ hs).1 hm]
    rw [extractInt_operand r hr _ _ (Or.inl rfl)]
  · obtain ⟨hm, hs⟩ := mnemonic_line "MOV2" (by decide) _ _ (instructionText_one "MOV2" r)
    rw [(assemble_one junk _ _ hs).2 hm]
    rw [extractInt_operand r hr _ _ (Or.inl rfl)]

/-- C5. For each table mnemonic and every list of in-range decimal operands of the length
its shape requires, the line `M op1 .. opk` assembles to the shape's encoder applied to the
opcode the table gives `M` and to the operands in textual order. -/
theorem assemble_wellformed (junk : Nat → Int) :
    (∀ M opc, (M, opc) ∈ opcodeMap → opc ∈ Opcode.alu → ∀ rd ra rb : Int,
      InIntRange rd → InIntRange ra → InIntRange rb →
      (assemble opcodeMap junk (instructionText M [rd, ra, rb])).result
        = .ok (makeALUOP opc rd ra rb)) ∧
    (∀ a b : Int, InIntRange a → InIntRange b →
      (assemble opcodeMap junk (instructionText "LDUR" [a, b])).result = .ok (makeLOAD a b) ∧
      (assemble opcodeMap junk (instructionText "STOR" [a, b])).result = .ok (makeSTOR a b) ∧
      (assemble opcodeMap junk (instructionText "B" [a, b])).result = .ok (makeB a b) ∧
      (assemble opcodeMap junk (instructionText "CMP" [a, b])).result = .ok (makeCMP a b)) ∧
    (∀ r : Int, InIntRange r →
      (assemble opcodeMap junk (instructionText "MOV1" [r])).result = .ok (makeMOV1 r) ∧
      (assemble opcodeMap junk (instructionText "MOV2" [r])).result = .ok (makeMOV2 r)) :=
  ⟨fun M opc hM halu rd ra rb hrd hra hrb =>
      assemble_text_alu junk M opc hM halu rd ra rb hrd hra hrb,
    fun a b ha hb => assemble_text_two junk a b ha hb,
    fun r hr => assemble_text_one junk r hr⟩

/-- Witness of C5: `"ADDI 0 0 3"` assembles to `0x13` and `"MOV1 6"` to `0xEC`. -/
theorem assemble_wellformed_witness :
    instructionText "ADDI" [0, 0, 3] = "ADDI 0 0 3" ∧
    (assemble opcodeMap (fun _ => 0) "ADDI 0 0 3").result = .ok 0x13 ∧
    instructionText "MOV1" [6] = "MOV1 6" ∧
    (assemble opcodeMap (fun _ => 0) "MOV1 6").result = .ok 0xEC := by
  have h := assemble_wellformed (fun _ => 0)
  have h1 := h.1 "ADDI" ADDI (by decide) (by decide) 0 0 3 ⟨by decide, by decide⟩
    ⟨by decide, by decide⟩ ⟨by decide, by decide⟩
  have h2 := (h.2.2 6 ⟨by decide, by decide⟩).1
  exact ⟨rfl, h1, rfl, h2⟩

/-! ## The assembler: results by mnemonic -/

theorem lookup_none_iff (M : String) : opcodeMap.lookup M = none ↔ M ∉ mnemonics := by
  have key : ∀ l : List (String × Opcode), l.lookup M = none ↔ M ∉ l.map Prod.fst := by
    intro l
    induction l with
    | nil => simp
    | cons p l ih =>
      obtain ⟨k, v⟩ := p
      by_cases h : M = k
      · subst h
        simp [List.lookup]
      · have hb : (M == k) = false := by simpa using h
        simp [List.lookup, hb, ih, h]
  exact key opcodeMap

theorem assemble_unknown (junk : Nat → Int) (line : String)
    (h : mnemonicOf line ∉ mnemonics) :
    (assemble opcodeMap junk line).result
      = .error ⟨"Unknown instruction: " ++ mnemonicOf line⟩ := by
  have h2 := (lookup_none_iff _).2 h
  unfold assemble
  simp only [mnemonic_eq, h2, if_true]

theorem assemble_nop (junk : Nat → Int) (line : String) (h : mnemonicOf line = "NOP") :
    assemble opcodeMap junk line
      = ⟨.ok makeNOP, opcodeMap, ((IStream.ofString line).extractString "").1⟩ := by
  unfold assemble
  simp only [mnemonic_eq, h]
  rfl

theorem makeALUOP_range (op : Opcode) (hop : op ∈ Opcode.enumerators) (rd ra rb : Int) :
    0 ≤ makeALUOP op rd ra rb ∧ makeALUOP op rd ra rb ≤ 255 := by
  have hr := enumerator_range op hop
  rw [makeALUOP_sum op hop]
  constructor <;> omega

/-- A line whose mnemonic is in the table always assembles to an 8-bit word. -/
theorem assemble_table (junk : Nat → Int) (line : String) (h : mnemonicOf line ∈ mnemonics) :
    ∃ w, (assemble opcodeMap junk line).result = .ok w ∧ 0 ≤ w ∧ w ≤ 255 := by
  simp only [mnemonics, List.mem_cons, List.mem_singleton, List.not_mem_nil, or_false] at h
  have alu : ∀ M opc, (M, opc) ∈ opcodeMap → opc ∈ Opcode.alu → mnemonicOf line = M →
      ∃ w, (assemble opcodeMap junk line).result = .ok w ∧ 0 ≤ w ∧ w ≤ 255 := by
    intro M opc hM halu hm
    rw [assemble_alu junk line M opc _ hM halu hm rfl]
    exact ⟨_, rfl, makeALUOP_range opc (alu_enumerator opc halu) _ _ _⟩
  have two := assemble_two junk line _ rfl
  have one := assemble_one junk line _ rfl
  rcases h with h | h | h | h | h | h | h | h | h | h | h | h | h | h | h | h | h
  · exact alu "ADD" ADD (by decide) (by decide) h
  · exact alu "ADDI" ADDI (by decide) (by decide) h
  · exact alu "SUB" SUB (by decide) (by decide) h
  · exact alu "SUBI" SUBI (by decide) (by decide) h
  · exact alu "AND" AND (by decide) (by decide) h
  · exact alu "OR" OR (by decide) (by decide) h
  · exact alu "XOR" XOR (by decide) (by decide) h
  · exact alu "NOT" NOT (by decide) (by decide) h
  · exact alu "LSL" LSL (by decide) (by decide) h
  · exact alu "LSR" LSR (by decide) (by decide) h
  · rw [two.1 h]
    refine ⟨_, rfl, ?_⟩
    rw [makeLOAD_sum]
    constructor <;> omega
  · rw [two.2.1 h]
    refine ⟨_, rfl, ?_⟩
    rw [makeSTOR_sum]
    constructor <;> omega
  · rw [two.2.2.2 h]
    refine ⟨_, rfl, ?_⟩
    rw [makeCMP_sum]
    constructor <;> omega
  · rw [two.2.2.1 h]
    refine ⟨_, rfl, ?_⟩
    rw [makeB_sum]
    constructor <;> omega
  · rw [one.1 h]
    refine ⟨_, rfl, ?_⟩
    rw [makeMOV1_sum]
    constructor <;> omega
  · rw [one.2 h]
    refine ⟨_, rfl, ?_⟩
    rw [makeMOV2_sum]
    constructor <;> omega
  · rw [assemble_nop junk line h]
    exact ⟨_, rfl, by decide, by decide⟩

theorem ite_map (c : Prop) [Decidable c] (a b : AsmRun) (m : OpcodeMap)
    (ha : a.map = m) (hb : b.map = m) : (if c then a else b).map = m := by
  split
  · exact ha
  · exact hb

/-- The table is left as it was by every call. -/
theorem assemble_map (map : OpcodeMap) (junk : Nat → Int) (line : String) :
    (assemble map junk line).map = map := by
  unfold assemble
  simp only [mnemonic_eq]
  cases hl : List.lookup (mnemonicOf line) map with
  | none => simp
  | some v =>
    simp only [OpcodeMap.index, hl]
    apply ite_map _ _ _ _ (by simp)
    repeat (first | rfl | apply ite_map _ _ _ _ rfl)

/-- C6. `NOP` always assembles to `0x00`: `makeNOP() = 0`, and for every line whose first
token is `NOP` in any letter case, whatever follows it, `assemble` returns 0 and reads no
operand: the stream is left as the extraction of the mnemonic left it. -/
theorem nop_assembles_to_zero :
    makeNOP = 0 ∧
    ∀ (junk : Nat → Int) (line : String), mnemonicOf line = "NOP" →
      (assemble opcodeMap junk line).result = .ok 0 ∧
      (assemble opcodeMap junk line).iss = ((IStream.ofString line).extractString "").1 := by
  refine ⟨rfl, ?_⟩
  intro junk line h
  rw [assemble_nop junk line h]
  exact ⟨rfl, rfl⟩

/-- Witness of C6: `"  nOp 7 x"` has the mnemonic `NOP`; it assembles to 0 and the text
after the mnemonic is left unread. -/
theorem nop_assembles_to_zero_witness :
    mnemonicOf "  nOp 7 x" = "NOP" ∧
    (assemble opcodeMap (fun _ => 5) "  nOp 7 x").result = .ok 0 ∧
    (assemble opcodeMap (fun _ => 5) "  nOp 7 x").iss = ⟨" 7 x".data, false, false⟩ := by
  have h := nop_assembles_to_zero.2 (fun _ => 5) "  nOp 7 x" (by decide)
  refine ⟨by decide, h.1, ?_⟩
  rw [h.2]
  rfl

/-- An extraction that stores a value stores the same one whatever the variable held. -/
theorem extractInt_written (s : IStream) (n : Int) (h : s.writes = true) :
    s.extractInt n = s.extractInt 0 := by
  unfold IStream.writes at h
  simp only [Bool.and_eq_true, Bool.not_eq_true', List.isEmpty_eq_false] at h
  obtain ⟨hg, hne⟩ := h
  unfold IStream.extractInt
  rw [hg]
  cases hd : List.dropWhile isspace s.buf with
  | nil => exact absurd hd hne
  | cons c cs => rfl

theorem writesAll_three (s : IStream) (h : s.writesAll 3 = true) :
    s.writes = true ∧ (s.extractInt 0).1.writes = true ∧
      ((s.extractInt 0).1.extractInt 0).1.writes = true := by
  simp only [IStream.writesAll, Bool.and_eq_true, Bool.and_true] at h
  exact ⟨h.1, h.2.1, h.2.2⟩

theorem writesAll_two (s : IStream) (h : s.writesAll 2 = true) :
    s.writes = true ∧ (s.extractInt 0).1.writes = true := by
  simp only [IStream.writesAll, Bool.and_eq_true, Bool.and_true] at h
  exact ⟨h.1, h.2⟩

theorem writesAll_one (s : IStream) (h : s.writesAll 1 = true) : s.writes = true := by
  simp only [IStream.writesAll, Bool.and_eq_true, Bool.and_true] at h
  exact h

/-- When every operand variable is written, the result does not depend on the
indeterminate values. -/
theorem assemble_written (line : String) (hw : operandsWritten line = true)
    (j1 j2 : Nat → Int) :
    (assemble opcodeMap j1 line).result = (assemble opcodeMap j2 line).result := by
  by_cases h : mnemonicOf line ∈ mnemonics
  · unfold operandsWritten operandStream at hw
    simp only [mnemonics, List.mem_cons, List.mem_singleton, List.not_mem_nil, or_false] at h
    have alu : ∀ M opc, (M, opc) ∈ opcodeMap → opc ∈ Opcode.alu → mnemonicOf line = M →
        operandCount M = 3 →
        (assemble opcodeMap j1 line).result = (assemble opcodeMap j2 line).result := by
      intro M opc hM halu hm hc
      rw [hm, hc] at hw
      obtain ⟨w1, w2, w3⟩ := writesAll_three _ hw
      rw [assemble_alu j1 line M opc _ hM halu hm rfl,
        assemble_alu j2 line M opc _ hM halu hm rfl]
      rw [extractInt_written _ (j1 0) w1, extractInt_written _ (j2 0) w1,
        extractInt_written _ (j1 1) w2, extractInt_written _ (j2 1) w2,
        extractInt_written _ (j1 2) w3, extractInt_written _ (j2 2) w3]
    have two1 := assemble_two j1 line _ rfl
    have two2 := assemble_two j2 line _ rfl
    have one1 := assemble_one j1 line _ rfl
    have one2 := assemble_one j2 line _ rfl
    have c2 : ∀ M, M ∈ ["LDUR", "STOR", "B", "CMP"] → mnemonicOf line = M →
        (((IStream.ofString line).extractString "").1).writes = true ∧
        ((((IStream.ofString line).extractString "").1).extractInt 0).1.writes = true := by
      intro M hM hm
      rw [hm] at hw
      have hc : operandCount M = 2 := by
        simp only [List.mem_cons, List.mem_singleton, List.not_mem_nil, or_false] at hM
        rcases hM with h | h | h | h <;> subst h <;> decide
      rw [hc] at hw
      exact writesAll_two _ hw
    have c1 : ∀ M, M ∈ ["MOV1", "MOV2"] → mnemonicOf line = M →
        (((IStream.ofString line).extractString "").1).writes = true := by
      intro M hM hm
      rw [hm] at hw
      have hc : operandCount M = 1 := by
        simp only [List.mem_cons, List.mem_singleton, List.not_mem_nil, or_false] at hM
        rcases hM with h | h <;> subst h <;> decide
      rw [hc] at hw
      exact writesAll_one _ hw
    rcases h with h | h | h | h | h | h | h | h | h | h | h | h | h | h | h | h | h
    · exact alu "ADD" ADD (by decide) (by decide) h (by decide)
    · exact alu "ADDI" ADDI (by decide) (by decide) h (by decide)
    · exact alu "SUB" SUB (by decide) (by decide) h (by decide)
    · exact alu "SUBI" SUBI (by decide) (by decide) h (by decide)
    · exact alu "AND" AND (by decide) (by decide) h (by decide)
    · exact alu "OR" OR (by decide) (by decide) h (by decide)
    · exact alu "XOR" XOR (by decide) (by decide) h (by decide)
    · exact alu "NOT" NOT (by decide) (by decide) h (by decide)
    · exact alu "LSL" LSL (by decide) (by decide) h (by decide)
    · exact alu "LSR" LSR (by decide) (by decide) h (by decide)
    · obtain ⟨w1, w2⟩ := c2 _ (by decide) h
      rw [two1.1 h, two2.1 h, extractInt_written _ (j1 0) w1, extractInt_written _ (j2 0) w1,
        extractInt_written _ (j1 1) w2, extractInt_written _ (j2 1) w2]
    · obtain ⟨w1, w2⟩ := c2 _ (by decide) h
      rw [two1.2.1 h, two2.2.1 h, extractInt_written _ (j1 0) w1,
        extractInt_written _ (j2 0) w1,
        extractInt_written _ (j1 1) w2, extractInt_written _ (j2 1) w2]
    · obtain ⟨w1, w2⟩ := c2 _ (by decide) h
      rw [two1.2.2.2 h, two2.2.2.2 h, extractInt_written _ (j1 0) w1,
        extractInt_written _ (j2 0) w1,
        extractInt_written _ (j1 1) w2, extractInt_written _ (j2 1) w2]
    · obtain ⟨w1, w2⟩ := c2 _ (by decide) h
      rw [two1.2.2.1 h, two2.2.2.1 h, extractInt_written _ (j1 0) w1,
        extractInt_written _ (j2 0) w1,
        extractInt_written _ (j1 1) w2, extractInt_written _ (j2 1) w2]
    · have w1 := c1 _ (by decide) h
      rw [one1.1 h, one2.1 h, extractInt_written _ (j1 0) w1, extractInt_written _ (j2 0) w1]
    · have w1 := c1 _ (by decide) h
      rw [one1.2 h, one2.2 h, extractInt_written _ (j1 0) w1, extractInt_written _ (j2 0) w1]
    · rw [assemble_nop j1 line h, assemble_nop j2 line h]
  · rw [assemble_unknown j1 line h, assemble_unknown j2 line h]

theorem recased_not_space (tok1 tok2 : List Char)
    (hcase : tok2.map toupper = tok1.map toupper)
    (htok : ∀ c ∈ tok1, isspace c = false) : ∀ c ∈ tok2, isspace c = false := by
  intro c hc
  have h1 : toupper c ∈ tok2.map toupper := List.mem_map_of_mem _ hc
  rw [hcase] at h1
  obtain ⟨d, hd, he⟩ := List.mem_map.1 h1
  rw [← isspace_toupper c, ← he, isspace_toupper d]
  exact htok d hd

theorem assemble_congr (map : OpcodeMap) (junk : Nat → Int) (l1 l2 : String)
    (hm : mnemonicOf l1 = mnemonicOf l2)
    (hs : ((IStream.ofString l1).extractString "").1
      = ((IStream.ofString l2).extractString "").1) :
    assemble map junk l1 = assemble map junk l2 := by
  unfold assemble
  simp only [mnemonic_eq, hm, hs]

/-- Re-casing the first token of a line changes neither its mnemonic nor the stream the
operand extractions start from. -/
theorem recased_line (l1 l2 : String) (pre tok1 tok2 rest : List Char)
    (h1 : l1.data = pre ++ (tok1 ++ rest)) (h2 : l2.data = pre ++ (tok2 ++ rest))
    (hpre : ∀ c ∈ pre, isspace c = true) (htok : ∀ c ∈ tok1, isspace c = false)
    (hrest : rest = [] ∨ ∃ c r, rest = c :: r ∧ isspace c = true)
    (hcase : tok2.map toupper = tok1.map toupper) :
    mnemonicOf l1 = mnemonicOf l2 ∧ operandStream l1 = operandStream l2 := by
  have htok2 := recased_not_space tok1 tok2 hcase htok
  by_cases hne : tok1 = []
  · have hne2 : tok2 = [] := by
      have := congrArg List.length hcase
      simp only [List.length_map, hne, List.length_nil] at this
      exact List.length_eq_zero.1 this
    have : l1 = l2 := by
      apply String.ext
      rw [h1, h2, hne, hne2]
    rw [this]
    exact ⟨rfl, rfl⟩
  · have hne2 : tok2 ≠ [] := by
      intro h
      have := congrArg List.length hcase
      simp only [List.length_map, h, List.length_nil] at this
      exact hne (List.length_eq_zero.1 this.symm)
    have s1 : IStream.ofString l1 = ⟨pre ++ (tok1 ++ rest), false, false⟩ := by
      unfold IStream.ofString
      rw [h1]
    have s2 : IStream.ofString l2 = ⟨pre ++ (tok2 ++ rest), false, false⟩ := by
      unfold IStream.ofString
      rw [h2]
    have e1 := extractString_token pre tok1 rest "" hpre hne htok hrest
    have e2 := extractString_token pre tok2 rest "" hpre hne2 htok2 hrest
    constructor
    · unfold mnemonicOf
      rw [← extractString_snd, ← extractString_snd, s1, s2, e1, e2]
      show (⟨tok1.map toupper⟩ : String) = ⟨tok2.map toupper⟩
      rw [hcase]
    · unfold operandStream
      rw [s1, s2, e1, e2]

/-- Two lines that differ only in the letter case of the first token: both fail, with the
same exception, or both return a word; and when every operand variable is written the
results are equal whatever the indeterminate values of the two calls. -/
theorem assemble_recased (junk1 junk2 : Nat → Int) (l1 l2 : String)
    (hm : mnemonicOf l1 = mnemonicOf l2) (hs : operandStream l1 = operandStream l2) :
    (∀ e, (assemble opcodeMap junk1 l1).result = .error e ↔
      (assemble opcodeMap junk2 l2).result = .error e) ∧
    (operandsWritten l1 = true →
      (assemble opcodeMap junk1 l1).result = (assemble opcodeMap junk2 l2).result) := by
  constructor
  · intro e
    by_cases h : mnemonicOf l1 ∈ mnemonics
    · obtain ⟨w1, hw1, _⟩ := assemble_table junk1 l1 h
      obtain ⟨w2, hw2, _⟩ := assemble_table junk2 l2 (hm ▸ h)
      rw [hw1, hw2]
      constructor <;> intro he <;> cases he
    · rw [assemble_unknown junk1 l1 h, assemble_unknown junk2 l2 (hm ▸ h), hm]
  · intro hw
    rw [assemble_written l1 hw junk1 junk2]
    exact congrArg AsmRun.result (assemble_congr opcodeMap junk2 l1 l2 hm hs)

/-- C10, evaluated at the failing input `"MOV1"` re-cased to `"mov1"`.  Re-casing the
first token never changes the mnemonic nor the text the operands are read from: the two
lines fail together, with the same exception, and whenever every operand variable is
written they give the same result, whatever the indeterminate values of the two calls
(`"addi 0 0 3"`, `"AdDi 0 0 3"` and `"ADDI 0 0 3"` all give `0x13`).  But `"MOV1"` leaves
its operand variable unwritten, so the word depends on the indeterminate value of `rd` in
each call: `"MOV1"` gives `0xE0` when it is 0 and `"mov1"` gives `0xE2` when it is 1. -/
theorem recased_missing_operand :
    (∀ (junk1 junk2 : Nat → Int) (l1 l2 : String) (pre tok1 tok2 rest : List Char),
      l1.data = pre ++ (tok1 ++ rest) → l2.data = pre ++ (tok2 ++ rest) →
      (∀ c ∈ pre, isspace c = true) → (∀ c ∈ tok1, isspace c = false) →
      (rest = [] ∨ ∃ c r, rest = c :: r ∧ isspace c = true) →
      tok2.map toupper = tok1.map toupper →
      (∀ e, (assemble opcodeMap junk1 l1).result = .error e ↔
        (assemble opcodeMap junk2 l2).result = .error e) ∧
      (operandsWritten l1 = true →
        (assemble opcodeMap junk1 l1).result = (assemble opcodeMap junk2 l2).result)) ∧
    (∀ junk, (assemble opcodeMap junk "addi 0 0 3").result = .ok 0x13 ∧
      (assemble opcodeMap junk "AdDi 0 0 3").result = .ok 0x13 ∧
      (assemble opcodeMap junk "ADDI 0 0 3").result = .ok 0x13) ∧
    operandsWritten "MOV1" = false ∧
    (assemble opcodeMap (fun _ => 0) "MOV1").result = .ok 0xE0 ∧
    (assemble opcodeMap (fun _ => 1) "mov1").result = .ok 0xE2 ∧
    (assemble opcodeMap (fun _ => 0) "MOV1").result
      ≠ (assemble opcodeMap (fun _ => 1) "mov1").result := by
  refine ⟨?_, ?_, rfl, rfl, rfl, ?_⟩
  · intro junk1 junk2 l1 l2 pre tok1 tok2 rest h1 h2 hpre htok hrest hcase
    obtain ⟨hm, hs⟩ := recased_line l1 l2 pre tok1 tok2 rest h1 h2 hpre htok hrest hcase
    exact assemble_recased junk1 junk2 l1 l2 hm hs
  · intro junk
    refine ⟨?_, ?_, ?_⟩
    · rw [assemble_written "addi 0 0 3" rfl junk (fun _ => 0)]
      rfl
    · rw [assemble_written "AdDi 0 0 3" rfl junk (fun _ => 0)]
      rfl
    · rw [assemble_written "ADDI 0 0 3" rfl junk (fun _ => 0)]
      rfl
  · have h0 : (assemble opcodeMap (fun _ => 0) "MOV1").result = .ok 0xE0 := rfl
    have h1 : (assemble opcodeMap (fun _ => 1) "mov1").result = .ok 0xE2 := rfl
    rw [h0, h1]
    intro h
    injection h with h
    exact absurd h (by decide)

/-! ## The batch loop -/

/-- One step of the loop seen through `lineWord`: the word of line `k`, if any, is
appended to `program`. -/
theorem assembleLoop_program (junk : Nat → Nat → Int) (assembly : List String) :
    ∀ (lines : List String) (k : Nat) (b : Batch), b.map = opcodeMap →
      assembly.drop k = lines →
      (assembleLoop junk k lines b).program
        = b.program ++ (List.range' k lines.length).filterMap (lineWord junk assembly) ∧
      (assembleLoop junk k lines b).map = opcodeMap ∧
      (assembleLoop junk k lines b).program.length + (assembleLoop junk k lines b).cerr.length
        = b.program.length + b.cerr.length + lines.length := by
  intro lines
  induction lines with
  | nil =>
    intro k b hb _
    simp [assembleLoop, hb]
  | cons line rest ih =>
    intro k b hb hdrop
    have hget : assembly[k]? = some line := by
      rw [← List.head?_drop, hdrop]
      rfl
    have hdrop2 : assembly.drop (k + 1) = rest := by
      rw [← List.drop_drop, hdrop]
      rfl
    have hmap := assemble_map opcodeMap (junk k) line
    have hlw : lineWord junk assembly k
        = match (assemble opcodeMap (junk k) line).result with
          | .ok w => some w
          | .error _ => none := by
      unfold lineWord
      rw [hget]
    unfold assembleLoop
    rw [hb]
    rw [List.length_cons, List.range'_succ, List.filterMap_cons, hlw]
    cases hr : (assemble opcodeMap (junk k) line).result with
    | ok w =>
      dsimp only
      obtain ⟨i1, i2, i3⟩ := ih (k + 1) ⟨b.program ++ [w], b.cerr,
        (assemble opcodeMap (junk k) line).map⟩ hmap hdrop2
      rw [i3, i2, i1]
      simp
      omega
    | error e =>
      dsimp only
      obtain ⟨i1, i2, i3⟩ := ih (k + 1) ⟨b.program, b.cerr ++
        ["Error: " ++ e.what ++ " in line: " ++ line ++ "\n"],
        (assemble opcodeMap (junk k) line).map⟩ hmap hdrop2
      rw [i3, i2, i1]
      simp
      omega

theorem assembleProgram_program (junk : Nat → Nat → Int) (assembly : List String) :
    (assembleProgram junk assembly).program
      = (List.range assembly.length).filterMap (lineWord junk assembly) := by
  have h := (assembleLoop_program junk assembly assembly 0 ⟨[], [], opcodeMap⟩ rfl rfl).1
  unfold assembleProgram
  rw [h, List.range_eq_range']
  rfl

/-- Among the first `i` indices, those that give a word and those that do not add up to
`i`. -/
theorem filterMap_length_add (f : Nat → Option Int) (i : Nat) :
    ((List.range i).filterMap f).length
      + ((List.range i).filter (fun j => (f j).isNone)).length = i := by
  induction i with
  | zero => rfl
  | succ i ih =>
    rw [List.range_succ, List.filterMap_append, List.filter_append, List.length_append,
      List.length_append]
    cases h : f i with
    | none =>
      simp [List.filterMap_cons, List.filter_cons, h]
      omega
    | some w =>
      simp [List.filterMap_cons, List.filter_cons, h]
      omega

/-- The word of index `i` sits right after the words of the indices before it. -/
theorem filterMap_get (f : Nat → Option Int) (n i : Nat) (w : Int) (hi : i < n)
    (hw : f i = some w) :
    ((List.range n).filterMap f)[((List.range i).filterMap f).length]? = some w := by
  induction n with
  | zero => omega
  | succ n ih =>
    rw [List.range_succ, List.filterMap_append]
    by_cases h : i < n
    · have h2 := ih h
      have hlt : ((List.range i).filterMap f).length < ((List.range n).filterMap f).length := by
        by_contra hc
        rw [List.getElem?_eq_none (by omega)] at h2
        cases h2
      rw [List.getElem?_append_left hlt]
      exact h2
    · have e : i = n := by omega
      subst e
      rw [List.getElem?_append_right (le_refl _)]
      simp [List.filterMap_cons, hw]

theorem single_failure_count (p : Nat → Bool) (k : Nat) :
    ∀ i, (∀ j, j < i → (p j = true ↔ j = k)) →
      ((List.range i).filter p).length = if k < i then 1 else 0 := by
  intro i
  induction i with
  | zero =>
    intro _
    rfl
  | succ i ih =>
    intro h
    have h1 := ih (fun j hj => h j (by omega))
    have h2 := h i (by omega)
    have hf : ([i].filter p).length = if i = k then 1 else 0 := by
      by_cases e : i = k
      · have hp : p i = true := h2.2 e
        rw [List.filter_cons, if_pos hp, if_pos e]
        rfl
      · have hp : p i = false := by
          cases hpi : p i with
          | false => rfl
          | true => exact absurd (h2.1 hpi) e
        simp [List.filter_cons, hp, e]
    rw [List.range_succ, List.filter_append, List.length_append, h1, hf]
    split_ifs <;> omega

/-- C9. Batch assembly is best-effort and order-preserving: the loop ends on every list of
lines, and the program is exactly the sequence of the words of the lines that assemble, in
input order, nothing being emitted for a failing line (which is reported once on
`std::cerr`).  Hence the length of the program is the number of lines minus the number of
failing lines, and the word of a valid line at position `i` lands at address `i` minus the
number of failing lines before `i`: at `i - 1` when a single line fails, before `i`. -/
theorem batch_assembly (junk : Nat → Nat → Int) (assembly : List String) :
    (assembleProgram junk assembly).program
      = (List.range assembly.length).filterMap (lineWord junk assembly) ∧
    (assembleProgram junk assembly).program.length
      = assembly.length - failuresBefore junk assembly assembly.length ∧
    (assembleProgram junk assembly).cerr.length
      = failuresBefore junk assembly assembly.length ∧
    (∀ i w, i < assembly.length → lineWord junk assembly i = some w →
      (assembleProgram junk assembly).program[i - failuresBefore junk assembly i]?
        = some w) ∧
    (∀ k i w, (∀ j, j < assembly.length → (lineWord junk assembly j = none ↔ j = k)) →
      k < i → i < assembly.length → lineWord junk assembly i = some w →
      (assembleProgram junk assembly).program[i - 1]? = some w) := by
  have hp := assembleProgram_program junk assembly
  have hl := filterMap_length_add (lineWord junk assembly) assembly.length
  have hsum := (assembleLoop_program junk assembly assembly 0 ⟨[], [], opcodeMap⟩ rfl rfl).2.2
  have haddr : ∀ i w, i < assembly.length → lineWord junk assembly i = some w →
      (assembleProgram junk assembly).program[i - failuresBefore junk assembly i]?
        = some w := by
    intro i w hi hw
    have hg := filterMap_get (lineWord junk assembly) assembly.length i w hi hw
    have hli := filterMap_length_add (lineWord junk assembly) i
    have e : i - failuresBefore junk assembly i
        = ((List.range i).filterMap (lineWord junk assembly)).length := by
      unfold failuresBefore
      omega
    rw [hp, e]
    exact hg
  refine ⟨hp, ?_, ?_, haddr, ?_⟩
  · rw [hp]
    unfold failuresBefore
    omega
  · have e : (assembleProgram junk assembly).program.length
        = ((List.range assembly.length).filterMap (lineWord junk assembly)).length := by
      rw [hp]
    have hsum2 : (assembleProgram junk assembly).program.length
        + (assembleProgram junk assembly).cerr.length = assembly.length := by
      unfold assembleProgram
      rw [hsum]
      simp
    unfold failuresBefore
    omega
  · intro k i w hone hki hi hw
    have hc := single_failure_count (fun j => (lineWord junk assembly j).isNone) k i
      (fun j hj => by
        have := hone j (by omega)
        simp only [Option.isNone_iff_eq_none]
        exact this)
    have e : failuresBefore junk assembly i = 1 := by
      unfold failuresBefore
      rw [hc, if_pos hki]
    have := haddr i w hi hw
    rw [e] at this
    exact this

/-- Witness of C9: of the three lines `ADDI 0 0 3`, `FOO 1 2`, `MOV1 6` the second fails;
the program is `[0x13, 0xEC]` and the word of the third line lands at address 1. -/
theorem batch_assembly_witness :
    (assembleProgram (fun _ _ => 0) ["ADDI 0 0 3", "FOO 1 2", "MOV1 6"]).program
      = [0x13, 0xEC] ∧
    (assembleProgram (fun _ _ => 0) ["ADDI 0 0 3", "FOO 1 2", "MOV1 6"]).program[1]?
      = some 0xEC ∧
    (assembleProgram (fun _ _ => 0) ["ADDI 0 0 3", "FOO 1 2", "MOV1 6"]).cerr
      = ["Error: Unknown instruction: FOO in line: FOO 1 2\n"] :=
  ⟨rfl,
   (batch_assembly (fun _ _ => 0) ["ADDI 0 0 3", "FOO 1 2", "MOV1 6"]).2.2.2.1 2 0xEC
      (by decide) rfl,
   rfl⟩

/-! ## The clock helper -/

theorem tick_top {σ : Type} (m : Model σ) (tfp : Bool) (s : Sim σ) :
    (tick m tfp s).top = { s.top with clk := 0 } :=
  rfl

theorem tick_state {σ : Type} (m : Model σ) (tfp : Bool) (s : Sim σ) :
    (tick m tfp s).state
      = m.eval { s.top with clk := 0 } (m.eval { s.top with clk := 1 } s.state) :=
  rfl

theorem tick_time {σ : Type} (m : Model σ) (tfp : Bool) (s : Sim σ) :
    (tick m tfp s).main_time = s.main_time + 2 :=
  rfl

theorem tick_vcd {σ : Type} (m : Model σ) (s : Sim σ) :
    (tick m true s).vcd = s.vcd ++ [s.main_time, s.main_time + 1] := by
  simp [tick]

theorem tick_cout {σ : Type} (m : Model σ) (tfp : Bool) (s : Sim σ) :
    (tick m tfp s).cout = s.cout :=
  rfl

/-! ## Clock periods in an evaluation history -/

theorem Period.append_left {σ : Type} {m : Model σ} {log : List (Pins × σ)} {p : Nat}
    {q : Pins} {prev : σ} (h : Period m log p q prev) (more : List (Pins × σ)) :
    Period m (log ++ more) p q prev := by
  obtain ⟨h1, h2⟩ := h
  have l1 : 2 * p < log.length := by
    by_contra hc
    rw [List.getElem?_eq_none (by omega)] at h1
    cases h1
  have l2 : 2 * p + 1 < log.length := by
    by_contra hc
    rw [List.getElem?_eq_none (by omega)] at h2
    cases h2
  exact ⟨by rw [List.getElem?_append_left l1]; exact h1,
    by rw [List.getElem?_append_left l2]; exact h2⟩

theorem Period.append_right {σ : Type} {m : Model σ} {log : List (Pins × σ)} {p : Nat}
    {q : Pins} {prev : σ} (h : Period m log p q prev) (before : List (Pins × σ)) (a : Nat)
    (ha : before.length = 2 * a) :
    Period m (before ++ log) (a + p) q prev := by
  obtain ⟨h1, h2⟩ := h
  constructor
  · rw [List.getElem?_append_right (by omega)]
    have : 2 * (a + p) - before.length = 2 * p := by omega
    rw [this]
    exact h1
  · rw [List.getElem?_append_right (by omega)]
    have : 2 * (a + p) + 1 - before.length = 2 * p + 1 := by omega
    rw [this]
    exact h2

theorem tick_evals_log {σ : Type} (m : Model σ) (tfp : Bool) (s : Sim σ) :
    (tick m tfp s).evals = s.evals ++ periodLog m s.top s.state :=
  rfl

/-- The entries of a clock period do not depend on the former value of `clk`, nor on
fields that agree. -/
theorem periodLog_congr {σ : Type} (m : Model σ) (q r : Pins) (prev : σ)
    (h : ∀ c : Nat, ({ q with clk := c } : Pins) = { r with clk := c }) :
    periodLog m q prev = periodLog m r prev := by
  unfold periodLog
  rw [h 1, h 0]

theorem periodLog_length {σ : Type} (m : Model σ) (q : Pins) (prev : σ) :
    (periodLog m q prev).length = 2 :=
  rfl

/-- The two entries that one `tick` appends form a clock period. -/
theorem Period.last {σ : Type} (m : Model σ) (log : List (Pins × σ)) (n : Nat)
    (hn : log.length = 2 * n) (q : Pins) (prev : σ) :
    Period m (log ++ periodLog m q prev) n q prev := by
  constructor
  · rw [List.getElem?_append_right (by omega)]
    have : 2 * n - log.length = 0 := by omega
    rw [this]
    rfl
  · rw [List.getElem?_append_right (by omega)]
    have : 2 * n + 1 - log.length = 1 := by omega
    rw [this]
    rfl

theorem periodLog_control {σ : Type} (m : Model σ) (q : Pins) (prev : σ) :
    (periodLog m q prev).map (fun x => x.1.control) = [q.control, q.control] :=
  rfl

theorem foldl_range_succ {α : Type} (f : α → Nat → α) (a : α) (n : Nat) :
    (List.range (n + 1)).foldl f a = f ((List.range n).foldl f a) n := by
  rw [List.range_succ, List.foldl_append]
  rfl

theorem range'_two_succ (t n : Nat) :
    List.range' t (2 * (n + 1)) = List.range' t (2 * n) ++ [t + 2 * n, t + 2 * n + 1] := by
  have h : 2 * (n + 1) = 2 + 2 * n := by omega
  rw [h, ← List.range'_append_1]
  rfl

theorem replicate_two_succ {α : Type} (n : Nat) (c : α) :
    List.replicate (2 * (n + 1)) c = List.replicate (2 * n) c ++ [c, c] := by
  have h : 2 * (n + 1) = 2 * n + 2 := by omega
  rw [h, List.replicate_add]
  rfl

/-- The load loop after `n` iterations, started in the state `s`. -/
theorem load_loop {σ : Type} (m : Model σ) (program : List Int) (s : Sim σ) (n : Nat) :
    ∃ suf : List (Pins × σ),
      ((List.range n).foldl (loadStep m program) s).evals = s.evals ++ suf ∧
      suf.length = 2 * n ∧
      (∀ i, i < n → ∃ prev, Period m suf i
        { s.top with program_memory_address := i,
                     program_memory_data_in := program.getD i 0,
                     program_memory_write_enable := 1 } prev) ∧
      suf.map (fun x => x.1.control)
        = List.replicate (2 * n)
            (s.top.rst, s.top.service_mode, s.top.program_memory_rst, 1) ∧
      ((List.range n).foldl (loadStep m program) s).main_time = s.main_time + 2 * n ∧
      ((List.range n).foldl (loadStep m program) s).vcd
        = s.vcd ++ List.range' s.main_time (2 * n) ∧
      ((List.range n).foldl (loadStep m program) s).cout = s.cout ∧
      ((List.range n).foldl (loadStep m program) s).top.rst = s.top.rst ∧
      ((List.range n).foldl (loadStep m program) s).top.service_mode
        = s.top.service_mode ∧
      ((List.range n).foldl (loadStep m program) s).top.program_memory_rst
        = s.top.program_memory_rst ∧
      ((List.range n).foldl (loadStep m program) s).top.data_memory_address
        = s.top.data_memory_address := by
  induction n with
  | zero => exact ⟨[], by simp, rfl, fun i hi => absurd hi (by omega), rfl, rfl, by simp, rfl,
      rfl, rfl, rfl, rfl⟩
  | succ n ih =>
    obtain ⟨suf, h1, h2, h3, h4, h5, h6, h7, h8, h9, h10, h11⟩ := ih
    rw [foldl_range_succ]
    generalize (List.range n).foldl (loadStep m program) s = S at h1 h5 h6 h7 h8 h9 h10 h11
    have hlog : (loadStep m program S n).evals
        = S.evals ++ periodLog m
            { s.top with program_memory_address := n,
                         program_memory_data_in := program.getD n 0,
                         program_memory_write_enable := 1 } S.state := by
      unfold loadStep
      rw [tick_evals_log]
      refine congrArg (fun l => S.evals ++ l) (periodLog_congr m _ _ _ ?_)
      intro c
      ext <;> simp [h8, h9, h10, h11]
    refine ⟨suf ++ periodLog m
            { s.top with program_memory_address := n,
                         program_memory_data_in := program.getD n 0,
                         program_memory_write_enable := 1 } S.state,
      ?_, ?_, ?_, ?_, ?_, ?_, ?_, ?_, ?_, ?_, ?_⟩
    · rw [hlog, h1, List.append_assoc]
    · rw [List.length_append, periodLog_length, h2]
      omega
    · intro i hi
      by_cases hin : i < n
      · obtain ⟨prev, hp⟩ := h3 i hin
        exact ⟨prev, hp.append_left _⟩
      · have e : i = n := by omega
        subst e
        exact ⟨S.state, Period.last m suf i h2 _ _⟩
    · rw [List.map_append, h4, replicate_two_succ, periodLog_control]
      rfl
    · unfold loadStep
      rw [tick_time]
      dsimp only
      omega
    · unfold loadStep
      rw [tick_vcd]
      dsimp only
      rw [h6, h5, range'_two_succ, List.append_assoc]
    · unfold loadStep
      rw [tick_cout]
      exact h7
    · exact h8
    · exact h9
    · exact h10
    · exact h11

/-- The run loop after `n` iterations, started in the state `s`. -/
theorem run_loop {σ : Type} (m : Model σ) (s : Sim σ) (n : Nat) :
    ∃ suf : List (Pins × σ),
      ((List.range n).foldl (fun s _ => tick m true s) s).evals = s.evals ++ suf ∧
      suf.length = 2 * n ∧
      (∀ i, i < n → ∃ prev, Period m suf i s.top prev) ∧
      suf.map (fun x => x.1.control) = List.replicate (2 * n) s.top.control ∧
      ((List.range n).foldl (fun s _ => tick m true s) s).main_time = s.main_time + 2 * n ∧
      ((List.range n).foldl (fun s _ => tick m true s) s).vcd
        = s.vcd ++ List.range' s.main_time (2 * n) ∧
      ((List.range n).foldl (fun s _ => tick m true s) s).cout = s.cout ∧
      (∀ c : Nat,
        ({ ((List.range n).foldl (fun s _ => tick m true s) s).top with clk := c } : Pins)
          = { s.top with clk := c }) := by
  induction n with
  | zero => exact ⟨[], by simp, rfl, fun i hi => absurd hi (by omega), rfl, rfl, by simp, rfl,
      fun _ => rfl⟩
  | succ n ih =>
    obtain ⟨suf, h1, h2, h3, h4, h5, h6, h7, h8⟩ := ih
    rw [foldl_range_succ]
    generalize (List.range n).foldl (fun s _ => tick m true s) s = S at h1 h5 h6 h7 h8
    have hlog : (tick m true S).evals = S.evals ++ periodLog m s.top S.state := by
      rw [tick_evals_log]
      exact congrArg (fun l => S.evals ++ l) (periodLog_congr m _ _ _ h8)
    refine ⟨suf ++ periodLog m s.top S.state, ?_, ?_, ?_, ?_, ?_, ?_, ?_, ?_⟩
    · rw [hlog, h1, List.append_assoc]
    · rw [List.length_append, periodLog_length, h2]
      omega
    · intro i hi
      by_cases hin : i < n
      · obtain ⟨prev, hp⟩ := h3 i hin
        exact ⟨prev, hp.append_left _⟩
      · have e : i = n := by omega
        subst e
        exact ⟨S.state, Period.last m suf i h2 _ _⟩
    · rw [List.map_append, h4, replicate_two_succ, periodLog_control]
    · rw [tick_time]
      omega
    · rw [tick_vcd, h6, h5, range'_two_succ, List.append_assoc]
    · rw [tick_cout]
      exact h7
    · intro c
      rw [tick_top]
      exact h8 c

/-- The readback loop after `n` iterations, started in the state `s`: in cycle `k` the
model is evaluated with the data-memory address of the cycle before (with the address
held at the start for `k = 0`), and the line printed for cycle `k` carries the output of
the second evaluation of that cycle. -/
theorem readback_loop {σ : Type} (m : Model σ) (s : Sim σ) (n : Nat) :
    ∃ (suf : List (Pins × σ)) (lines : List (Nat × Nat)),
      ((List.range n).foldl (readbackStep m) s).evals = s.evals ++ suf ∧
      suf.length = 2 * n ∧
      ((List.range n).foldl (readbackStep m) s).cout = s.cout ++ lines ∧
      lines.length = n ∧
      (∀ k, k < n → ∃ prev, Period m suf k
          { s.top with data_memory_address :=
              if k = 0 then s.top.data_memory_address else k - 1 } prev ∧
        lines[k]? = some (k, m.data_memory_data_out
          (m.eval { s.top with clk := 0, data_memory_address :=
              if k = 0 then s.top.data_memory_address else k - 1 }
            (m.eval { s.top with clk := 1, data_memory_address :=
              if k = 0 then s.top.data_memory_address else k - 1 } prev)))) ∧
      suf.map (fun x => x.1.control) = List.replicate (2 * n) s.top.control ∧
      ((List.range n).foldl (readbackStep m) s).main_time = s.main_time + 2 * n ∧
      ((List.range n).foldl (readbackStep m) s).vcd
        = s.vcd ++ List.range' s.main_time (2 * n) ∧
      (∀ c : Nat,
        ({ ((List.range n).foldl (readbackStep m) s).top with clk := c } : Pins)
          = { s.top with clk := c, data_memory_address :=
              if n = 0 then s.top.data_memory_address else n - 1 }) := by
  induction n with
  | zero => exact ⟨[], [], by simp, rfl, by simp, rfl, fun i hi => absurd hi (by omega), rfl,
      rfl, by simp, fun _ => rfl⟩
  | succ n ih =>
    obtain ⟨suf, lines, h1, h2, h3, h4, h5, h6, h7, h8, h9⟩ := ih
    rw [foldl_range_succ]
    generalize (List.range n).foldl (readbackStep m) s = S at h1 h3 h7 h8 h9
    have hlog : (readbackStep m S n).evals
        = S.evals ++ periodLog m
            { s.top with data_memory_address :=
                if n = 0 then s.top.data_memory_address else n - 1 } S.state := by
      unfold readbackStep
      show (tick m true S).evals = _
      rw [tick_evals_log]
      exact congrArg (fun l => S.evals ++ l) (periodLog_congr m _ _ _ h9)
    have hstate : (tick m true S).state
        = m.eval { s.top with clk := 0, data_memory_address :=
              if n = 0 then s.top.data_memory_address else n - 1 }
            (m.eval { s.top with clk := 1, data_memory_address :=
              if n = 0 then s.top.data_memory_address else n - 1 } S.state) := by
      rw [tick_state, h9 0, h9 1]
    refine ⟨suf ++ periodLog m
            { s.top with data_memory_address :=
                if n = 0 then s.top.data_memory_address else n - 1 } S.state,
      lines ++ [(n, m.data_memory_data_out (tick m true S).state)],
      ?_, ?_, ?_, ?_, ?_, ?_, ?_, ?_, ?_⟩
    · rw [hlog, h1, List.append_assoc]
    · rw [List.length_append, periodLog_length, h2]
      omega
    · unfold readbackStep
      show (tick m true S).cout ++ _ = _
      rw [tick_cout, h3, List.append_assoc]
    · rw [List.length_append, h4]
      rfl
    · intro k hk
      by_cases hkn : k < n
      · obtain ⟨prev, hp, hl⟩ := h5 k hkn
        refine ⟨prev, hp.append_left _, ?_⟩
        rw [List.getElem?_append_left (by omega)]
        exact hl
      · have e : k = n := by omega
        subst e
        refine ⟨S.state, Period.last m suf k h2 _ _, ?_⟩
        rw [List.getElem?_append_right (by omega), h4, Nat.sub_self, hstate]
        rfl
    · rw [List.map_append, h6, replicate_two_succ, periodLog_control]
      rfl
    · unfold readbackStep
      show (tick m true S).main_time = _
      rw [tick_time]
      omega
    · unfold readbackStep
      show (tick m true S).vcd = _
      rw [tick_vcd, h8, h7, range'_two_succ, List.append_assoc]
    · intro c
      unfold readbackStep
      show ({ (tick m true S).top with data_memory_address := n, clk := c } : Pins) = _
      rw [tick_top]
      have h := h9 c
      have e1 := congrArg Pins.rst h
      have e2 := congrArg Pins.service_mode h
      have e3 := congrArg Pins.program_memory_rst h
      have e4 := congrArg Pins.program_memory_write_enable h
      have e5 := congrArg Pins.program_memory_address h
      have e6 := congrArg Pins.program_memory_data_in h
      exact Pins.ext rfl e1 e2 e3 e4 e5 e6 (by simp)

theorem Period.congr {σ : Type} {m : Model σ} {log : List (Pins × σ)} {p : Nat}
    {q : Pins} {prev : σ} (h : Period m log p q prev) (r : Pins)
    (hr : ∀ c : Nat, ({ q with clk := c } : Pins) = { r with clk := c }) :
    Period m log p r prev := by
  unfold Period at h ⊢
  rw [← hr 1, ← hr 0]
  exact h

theorem range'_glue (a b : Nat) :
    List.range' 0 a ++ List.range' a b = List.range' 0 (a + b) := by
  have h := List.range'_append_1 0 a b
  rw [Nat.zero_add] at h
  rw [h, Nat.add_comm]

/-- The reset phase, from the initial state of a session. -/
theorem resetPhase_spec {σ : Type} (m : Model σ) (top0 : Pins) (init : σ) :
    (resetPhase m ⟨top0, init, 0, [], [], []⟩).evals
        = periodLog m { top0 with rst := 1, service_mode := 1, program_memory_rst := 1,
                                  program_memory_write_enable := 0 } init ∧
    (resetPhase m ⟨top0, init, 0, [], [], []⟩).main_time = 2 ∧
    (resetPhase m ⟨top0, init, 0, [], [], []⟩).vcd = List.range' 0 2 ∧
    (resetPhase m ⟨top0, init, 0, [], [], []⟩).cout = [] ∧
    (resetPhase m ⟨top0, init, 0, [], [], []⟩).top
        = { top0 with clk := 0, rst := 0, service_mode := 1, program_memory_rst := 0,
                      program_memory_write_enable := 0 } :=
  ⟨rfl, rfl, rfl, rfl, rfl⟩

/-- The whole evaluation history of a session, period by period: one reset period, one
load period per program word, 256 run periods and 16 readback periods. -/
theorem session_periods {σ : Type} (m : Model σ) (top0 : Pins) (init : σ)
    (program : List Int) :
    Period m (session m top0 init program).evals 0
      { top0 with rst := 1, service_mode := 1, program_memory_rst := 1,
                  program_memory_write_enable := 0 } init ∧
    (∀ i, i < program.length → ∃ prev,
      Period m (session m top0 init program).evals (1 + i)
        { top0 with rst := 0, service_mode := 1, program_memory_rst := 0,
                    program_memory_write_enable := 1, program_memory_address := i,
                    program_memory_data_in := program.getD i 0 } prev) ∧
    (∃ Tr : Pins, Tr.control = (0, 0, 0, 0) ∧
      Tr.data_memory_address = top0.data_memory_address ∧
      ∀ j, j < 256 → ∃ prev,
        Period m (session m top0 init program).evals (1 + program.length + j) Tr prev) ∧
    (∃ Tb : Pins, Tb.control = (0, 1, 0, 0) ∧
      Tb.data_memory_address = top0.data_memory_address ∧
      ∀ k, k < 16 → ∃ prev,
        Period m (session m top0 init program).evals (1 + program.length + 256 + k)
          { Tb with data_memory_address :=
              if k = 0 then Tb.data_memory_address else k - 1 } prev ∧
        (session m top0 init program).cout[k]?
          = some (k, m.data_memory_data_out
              (m.eval { Tb with clk := 0, data_memory_address :=
                  if k = 0 then Tb.data_memory_address else k - 1 }
                (m.eval { Tb with clk := 1, data_memory_address :=
                  if k = 0 then Tb.data_memory_address else k - 1 } prev)))) ∧
    (session m top0 init program).evals.length = 2 * (program.length + 273) ∧
    (session m top0 init program).evals.map (fun x => x.1.control)
      = List.replicate 2 (1, 1, 1, 0) ++ List.replicate (2 * program.length) (0, 1, 0, 1)
          ++ List.replicate 512 (0, 0, 0, 0) ++ List.replicate 32 (0, 1, 0, 0) ∧
    (session m top0 init program).cout.length = 16 ∧
    (session m top0 init program).main_time = 2 * (program.length + 273) ∧
    (session m top0 init program).vcd = List.range (2 * (program.length + 273)) := by
  unfold session
  obtain ⟨r1, r2, r3, r4, r5⟩ := resetPhase_spec m top0 init
  generalize resetPhase m ⟨top0, init, 0, [], [], []⟩ = sR at r1 r2 r3 r4 r5 ⊢
  -- load
  obtain ⟨B, l1, l2, l3, l4, l5, l6, l7, l8, l9, l10, l11⟩ :=
    load_loop m program sR program.length
  have hLP : loadPhase m program sR
      = { (List.range program.length).foldl (loadStep m program) sR with
            top := { ((List.range program.length).foldl (loadStep m program) sR).top with
              program_memory_write_enable := 0 } } := rfl
  rw [hLP]
  generalize (List.range program.length).foldl (loadStep m program) sR = SL
    at l1 l5 l6 l7 l8 l9 l10 l11 ⊢
  -- run
  obtain ⟨C, n1, n2, n3, n4, n5, n6, n7, n8⟩ :=
    run_loop m { SL with top := { SL.top with program_memory_write_enable := 0,
                                              service_mode := 0 } } 256
  have hRP : runPhase m { SL with top := { SL.top with program_memory_write_enable := 0 } }
      = (List.range 256).foldl (fun s _ => tick m true s)
          { SL with top := { SL.top with program_memory_write_enable := 0,
                                         service_mode := 0 } } := rfl
  rw [hRP]
  generalize (List.range 256).foldl (fun s _ => tick m true s)
      { SL with top := { SL.top with program_memory_write_enable := 0,
                                     service_mode := 0 } } = SN at n1 n5 n6 n7 n8 ⊢
  -- readback
  obtain ⟨D, lines, b1, b2, b3, b4, b5, b6, b7, b8, b9⟩ :=
    readback_loop m { SN with top := { SN.top with service_mode := 1 } } 16
  have hBP : readbackPhase m SN
      = (List.range 16).foldl (readbackStep m)
          { SN with top := { SN.top with service_mode := 1 } } := rfl
  rw [hBP]
  generalize (List.range 16).foldl (readbackStep m)
      { SN with top := { SN.top with service_mode := 1 } } = S at b1 b3 b7 b8 b9 ⊢
  dsimp only at l1 l5 l6 l7 l8 l9 l10 l11 n1 n3 n4 n5 n6 n7 n8 b1 b3 b5 b6 b7 b8 b9
  -- the pins after each phase
  have t1 : sR.top.rst = 0 := by rw [r5]
  have t2 : sR.top.service_mode = 1 := by rw [r5]
  have t3 : sR.top.program_memory_rst = 0 := by rw [r5]
  have t4 : sR.top.data_memory_address = top0.data_memory_address := by rw [r5]
  have u1 : SN.top.rst = 0 := (congrArg Pins.rst (n8 0)).trans (l8.trans t1)
  have u3 : SN.top.program_memory_rst = 0 :=
    (congrArg Pins.program_memory_rst (n8 0)).trans (l10.trans t3)
  have u4 : SN.top.program_memory_write_enable = 0 :=
    congrArg Pins.program_memory_write_enable (n8 0)
  have u5 : SN.top.data_memory_address = top0.data_memory_address :=
    (congrArg Pins.data_memory_address (n8 0)).trans (l11.trans t4)
  -- the histories
  have hA : sR.evals.length = 2 * 1 := by
    rw [r1]
    rfl
  have hAB : (sR.evals ++ B).length = 2 * (1 + program.length) := by
    rw [List.length_append, hA, l2]
    omega
  have hABC : (sR.evals ++ B ++ C).length = 2 * (1 + program.length + 256) := by
    rw [List.length_append, hAB, n2]
    omega
  have hev : S.evals = sR.evals ++ B ++ C ++ D := by
    rw [b1, n1, l1]
  have hcout : S.cout = lines := by
    rw [b3, n7, l7, r4]
    rfl
  refine ⟨?_, ?_, ?_, ?_, ?_, ?_, ?_, ?_, ?_⟩
  · rw [hev, r1]
    have h := Period.last m [] 0 rfl
      { top0 with rst := 1, service_mode := 1, program_memory_rst := 1,
                  program_memory_write_enable := 0 } init
    exact ((h.append_left B).append_left C).append_left D
  · intro i hi
    obtain ⟨prev, hp⟩ := l3 i hi
    refine ⟨prev, ?_⟩
    rw [hev]
    have hp2 := hp.congr
      { top0 with rst := 0, service_mode := 1, program_memory_rst := 0,
                  program_memory_write_enable := 1, program_memory_address := i,
                  program_memory_data_in := program.getD i 0 }
      (by
        intro c
        rw [r5])
    exact ((hp2.append_right sR.evals 1 hA).append_left C).append_left D
  · refine ⟨{ SL.top with program_memory_write_enable := 0, service_mode := 0 },
      ?_, ?_, ?_⟩
    · show (SL.top.rst, 0, SL.top.program_memory_rst, 0) = _
      rw [l8, l10, t1, t3]
    · show SL.top.data_memory_address = _
      rw [l11, t4]
    · intro j hj
      obtain ⟨prev, hp⟩ := n3 j hj
      refine ⟨prev, ?_⟩
      rw [hev]
      exact (hp.append_right (sR.evals ++ B) (1 + program.length) hAB).append_left D
  · refine ⟨{ SN.top with service_mode := 1 }, ?_, u5, ?_⟩
    · show (SN.top.rst, 1, SN.top.program_memory_rst, SN.top.program_memory_write_enable) = _
      rw [u1, u3, u4]
    · intro k hk
      obtain ⟨prev, hp, hl⟩ := b5 k hk
      refine ⟨prev, ?_, ?_⟩
      · rw [hev]
        exact hp.append_right (sR.evals ++ B ++ C) (1 + program.length + 256) hABC
      · rw [hcout]
        exact hl
  · rw [hev, List.length_append, hABC, b2]
    omega
  · rw [hev, List.map_append, List.map_append, List.map_append, r1, periodLog_control, l4,
      n4, b6, t1, t2, t3]
    have e1 : ({ SL.top with program_memory_write_enable := 0,
                             service_mode := 0 } : Pins).control = (0, 0, 0, 0) := by
      show (SL.top.rst, 0, SL.top.program_memory_rst, 0) = _
      rw [l8, l10, t1, t3]
    have e2 : ({ SN.top with service_mode := 1 } : Pins).control = (0, 1, 0, 0) := by
      show (SN.top.rst, 1, SN.top.program_memory_rst, SN.top.program_memory_write_enable)
        = _
      rw [u1, u3, u4]
    rw [e1, e2]
    have e3 : (2 * 256 : Nat) = 512 := rfl
    have e4 : (2 * 16 : Nat) = 32 := rfl
    have e0 : ({ top0 with rst := 1, service_mode := 1, program_memory_rst := 1,
                           program_memory_write_enable := 0 } : Pins).control
        = (1, 1, 1, 0) := rfl
    have e5 : ([(1, 1, 1, 0), (1, 1, 1, 0)] : List (Nat × Nat × Nat × Nat))
        = List.replicate 2 (1, 1, 1, 0) := rfl
    rw [e3, e4, e0]
    exact congrArg (fun l => l ++ List.replicate (2 * program.length) (0, 1, 0, 1)
      ++ List.replicate 512 (0, 0, 0, 0) ++ List.replicate 32 (0, 1, 0, 0)) e5
  · rw [hcout, b4]
  · rw [b7, n5, l5, r2]
    show 2 + 2 * program.length + 2 * 256 + 2 * 16 = _
    omega
  · rw [b8, n6, l6, r3, n5, l5, r2]
    show List.range' 0 2 ++ List.range' 2 (2 * program.length)
        ++ List.range' (2 + 2 * program.length) (2 * 256)
        ++ List.range' (2 + 2 * program.length + 2 * 256) (2 * 16) = _
    rw [range'_glue, range'_glue, range'_glue, List.range_eq_range']
    exact congrArg (fun n => List.range' 0 n) (by omega)

theorem segments_get {α : Type} (a b c d : Nat) (c1 c2 c3 c4 v : α) (j : Nat)
    (h : (List.replicate a c1 ++ List.replicate b c2 ++ List.replicate c c3
      ++ List.replicate d c4)[j]? = some v) :
    (j < a ∧ v = c1) ∨ (a ≤ j ∧ j < a + b ∧ v = c2) ∨
    (a + b ≤ j ∧ j < a + b + c ∧ v = c3) ∨
    (a + b + c ≤ j ∧ j < a + b + c + d ∧ v = c4) := by
  simp only [List.getElem?_append, List.length_append, List.length_replicate,
    List.getElem?_replicate] at h
  split_ifs at h <;> simp at h <;> subst h <;> first
    | exact Or.inl ⟨by omega, rfl⟩
    | exact Or.inr (Or.inl ⟨by omega, by omega, rfl⟩)
    | exact Or.inr (Or.inr (Or.inl ⟨by omega, by omega, rfl⟩))
    | exact Or.inr (Or.inr (Or.inr ⟨by omega, by omega, rfl⟩))

/-- The control pins seen by each evaluation of a session, by position in the history:
the reset period shows `(1, 1, 1, 0)`, the load periods `(0, 1, 0, 1)`, the run periods
`(0, 0, 0, 0)` and the readback periods `(0, 1, 0, 0)`. -/
theorem session_control {σ : Type} (m : Model σ) (top0 : Pins) (init : σ)
    (program : List Int) (j : Nat) (x : Pins × σ)
    (h : (session m top0 init program).evals[j]? = some x) :
    (j < 2 ∧ x.1.control = (1, 1, 1, 0)) ∨
    (2 ≤ j ∧ j < 2 * (1 + program.length) ∧ x.1.control = (0, 1, 0, 1)) ∨
    (2 * (1 + program.length) ≤ j ∧ j < 2 * (1 + program.length + 256) ∧
      x.1.control = (0, 0, 0, 0)) ∨
    (2 * (1 + program.length + 256) ≤ j ∧ j < 2 * (program.length + 273) ∧
      x.1.control = (0, 1, 0, 0)) := by
  have hc := (session_periods m top0 init program).2.2.2.2.2.1
  have hj : ((session m top0 init program).evals.map (fun x => x.1.control))[j]?
      = some x.1.control := by
    rw [List.getElem?_map, h]
    rfl
  rw [hc] at hj
  rcases segments_get _ _ _ _ _ _ _ _ _ j hj with h1 | h1 | h1 | h1
  · exact Or.inl h1
  · exact Or.inr (Or.inl ⟨h1.1, by omega, h1.2.2⟩)
  · exact Or.inr (Or.inr (Or.inl ⟨by omega, by omega, h1.2.2⟩))
  · exact Or.inr (Or.inr (Or.inr ⟨by omega, by omega, h1.2.2⟩))

/-! ## The simulation driver: the claims -/

/-- C11. Load phase: for a program of `N` words the load phase is the `N` clock periods
that follow the reset period; during the `i`-th of them both evaluations see
`program_memory_address = i`, `program_memory_data_in = program[i]` and
`program_memory_write_enable = 1`; at every evaluation of the reset, run and readback
periods write-enable is 0.  So write-enable is 1 exactly during periods `1..N`: `N` words
are written, to the addresses `0..N-1`. -/
theorem load_phase {σ : Type} (m : Model σ) (top0 : Pins) (init : σ) (program : List Int) :
    (∀ i, i < program.length → ∃ q prev w,
      program[i]? = some w ∧
      Period m (session m top0 init program).evals (1 + i) q prev ∧
      q.program_memory_address = i ∧ q.program_memory_data_in = w ∧
      q.program_memory_write_enable = 1) ∧
    (∀ j x, (session m top0 init program).evals[j]? = some x →
      (x.1.program_memory_write_enable = 1 ↔ 2 ≤ j ∧ j < 2 * (1 + program.length)) ∧
      (x.1.program_memory_write_enable = 0 ↔ j < 2 ∨ 2 * (1 + program.length) ≤ j)) ∧
    (session m top0 init program).evals.length = 2 * (program.length + 273) ∧
    (∀ s : Sim σ, (loadPhase m program s).evals.length
      = s.evals.length + 2 * program.length) := by
  have hp := session_periods m top0 init program
  refine ⟨?_, ?_, hp.2.2.2.2.1, ?_⟩
  · intro i hi
    obtain ⟨prev, h⟩ := hp.2.1 i hi
    refine ⟨_, prev, program.getD i 0, ?_, h, rfl, rfl, rfl⟩
    rw [List.getD_eq_getElem?_getD, List.getElem?_eq_getElem hi]
    rfl
  · intro j x hx
    rcases session_control m top0 init program j x hx with h | h | h | h
    · have e : x.1.program_memory_write_enable = 0 := congrArg (fun c => c.2.2.2) h.2
      rw [e]
      constructor <;> constructor <;> intro h' <;> omega
    · have e : x.1.program_memory_write_enable = 1 := congrArg (fun c => c.2.2.2) h.2.2
      rw [e]
      constructor <;> constructor <;> intro h' <;> omega
    · have e : x.1.program_memory_write_enable = 0 := congrArg (fun c => c.2.2.2) h.2.2
      rw [e]
      constructor <;> constructor <;> intro h' <;> omega
    · have e : x.1.program_memory_write_enable = 0 := congrArg (fun c => c.2.2.2) h.2.2
      rw [e]
      constructor <;> constructor <;> intro h' <;> omega
  · intro s
    obtain ⟨suf, h1, h2, _⟩ := load_loop m program s program.length
    show ((List.range program.length).foldl (loadStep m program) s).evals.length = _
    rw [h1, List.length_append, h2]

/-- Witness of C11: with the program `[0x13, 0xEC]`, the second load period (period 2 of
the session) shows address 1, data `0xEC` and write-enable 1. -/
theorem load_phase_witness :
    ∃ q prev w, ([0x13, 0xEC] : List Int)[1]? = some w ∧
      Period demoModel (session demoModel demoPins 0 [0x13, 0xEC]).evals (1 + 1) q prev ∧
      q.program_memory_address = 1 ∧ q.program_memory_data_in = w ∧
      q.program_memory_write_enable = 1 :=
  (load_phase demoModel demoPins 0 [0x13, 0xEC]).1 1 (by decide)

/-- C12. Run phase and phase order: a session is the reset phase, the load phase, the run
phase and the readback phase, in this order, each performed once; they take 1, `N`, 256
and 16 clock periods, `N + 273` in all.  Read off the control pins `(rst, service_mode,
program_memory_rst, write_enable)`, the evaluations are 2 of the reset period, `2N` of
the load periods, 512 of the run periods and 32 of the readback periods; `service_mode`
is 0 at every evaluation of the 256 run periods and 1 at every other evaluation. -/
theorem phase_order {σ : Type} (m : Model σ) (top0 : Pins) (init : σ) (program : List Int) :
    session m top0 init program
      = readbackPhase m (runPhase m (loadPhase m program (resetPhase m
          { top := top0, state := init, main_time := 0, evals := [], vcd := [],
            cout := [] }))) ∧
    (∀ s : Sim σ,
      (resetPhase m s).evals.length = s.evals.length + 2 * 1 ∧
      (loadPhase m program s).evals.length = s.evals.length + 2 * program.length ∧
      (runPhase m s).evals.length = s.evals.length + 2 * 256 ∧
      (readbackPhase m s).evals.length = s.evals.length + 2 * 16) ∧
    (session m top0 init program).evals.length = 2 * (program.length + 273) ∧
    (∀ p, p < program.length + 273 →
      ∃ q prev, Period m (session m top0 init program).evals p q prev) ∧
    (session m top0 init program).evals.map (fun x => x.1.control)
      = List.replicate 2 (1, 1, 1, 0) ++ List.replicate (2 * program.length) (0, 1, 0, 1)
          ++ List.replicate 512 (0, 0, 0, 0) ++ List.replicate 32 (0, 1, 0, 0) ∧
    (∀ j x, (session m top0 init program).evals[j]? = some x →
      (x.1.service_mode = 0 ↔
        2 * (1 + program.length) ≤ j ∧ j < 2 * (1 + program.length + 256)) ∧
      (x.1.service_mode = 1 ↔
        j < 2 * (1 + program.length) ∨ 2 * (1 + program.length + 256) ≤ j)) := by
  have hp := session_periods m top0 init program
  refine ⟨rfl, ?_, hp.2.2.2.2.1, ?_, hp.2.2.2.2.2.1, ?_⟩
  · intro s
    refine ⟨?_, ?_, ?_, ?_⟩
    · show (s.evals ++ periodLog m _ s.state).length = _
      rw [List.length_append, periodLog_length]
    · obtain ⟨suf, h1, h2, _⟩ := load_loop m program s program.length
      show ((List.range program.length).foldl (loadStep m program) s).evals.length = _
      rw [h1, List.length_append, h2]
    · obtain ⟨suf, h1, h2, _⟩ :=
        run_loop m { s with top := { s.top with service_mode := 0 } } 256
      show ((List.range 256).foldl (fun s _ => tick m true s)
        { s with top := { s.top with service_mode := 0 } }).evals.length = _
      rw [h1, List.length_append, h2]
    · obtain ⟨suf, lines, h1, h2, _⟩ :=
        readback_loop m { s with top := { s.top with service_mode := 1 } } 16
      show ((List.range 16).foldl (readbackStep m)
        { s with top := { s.top with service_mode := 1 } }).evals.length = _
      rw [h1, List.length_append, h2]
  · intro p hlt
    by_cases h0 : p = 0
    · subst h0
      exact ⟨_, _, hp.1⟩
    · by_cases h1 : p < 1 + program.length
      · obtain ⟨prev, h⟩ := hp.2.1 (p - 1) (by omega)
        have e : 1 + (p - 1) = p := by omega
        rw [e] at h
        exact ⟨_, prev, h⟩
      · by_cases h2 : p < 1 + program.length + 256
        · obtain ⟨Tr, _, _, h⟩ := hp.2.2.1
          obtain ⟨prev, h⟩ := h (p - (1 + program.length)) (by omega)
          have e : 1 + program.length + (p - (1 + program.length)) = p := by omega
          rw [e] at h
          exact ⟨_, prev, h⟩
        · obtain ⟨Tb, _, _, h⟩ := hp.2.2.2.1
          obtain ⟨prev, h, _⟩ := h (p - (1 + program.length + 256)) (by omega)
          have e : 1 + program.length + 256 + (p - (1 + program.length + 256)) = p := by
            omega
          rw [e] at h
          exact ⟨_, prev, h⟩
  · intro j x hx
    rcases session_control m top0 init program j x hx with h | h | h | h
    · have e : x.1.service_mode = 1 := congrArg (fun c => c.2.1) h.2
      rw [e]
      constructor <;> constructor <;> intro h' <;> omega
    · have e : x.1.service_mode = 1 := congrArg (fun c => c.2.1) h.2.2
      rw [e]
      constructor <;> constructor <;> intro h' <;> omega
    · have e : x.1.service_mode = 0 := congrArg (fun c => c.2.1) h.2.2
      rw [e]
      constructor <;> constructor <;> intro h' <;> omega
    · have e : x.1.service_mode = 1 := congrArg (fun c => c.2.1) h.2.2
      rw [e]
      constructor <;> constructor <;> intro h' <;> omega

/-- Witness of C12: a session with the empty program has 273 clock periods, and its last
one (period 272) is a clock period of the history. -/
theorem phase_order_witness :
    (session demoModel demoPins 0 []).evals.length = 2 * 273 ∧
    ∃ q prev, Period demoModel (session demoModel demoPins 0 []).evals 272 q prev :=
  ⟨(phase_order demoModel demoPins 0 []).2.2.1,
   (phase_order demoModel demoPins 0 []).2.2.2.1 272 (by decide)⟩

/-- C13. Readback trace shape: for every program and every model the session prints
exactly 16 trace entries; the `k`-th is tagged with the cycle index `k` and carries the
value of `data_memory_data_out` after the clock period of readback cycle `k`; the body of
the loop for cycle `k` sets `data_memory_address` to `k`. -/
theorem readback_trace {σ : Type} (m : Model σ) (top0 : Pins) (init : σ)
    (program : List Int) :
    (session m top0 init program).cout.length = 16 ∧
    (session m top0 init program).cout.map Prod.fst = List.range 16 ∧
    (∀ k, k < 16 → ∃ q prev,
      Period m (session m top0 init program).evals (1 + program.length + 256 + k) q prev ∧
      (session m top0 init program).cout[k]?
        = some (k, m.data_memory_data_out
            (m.eval { q with clk := 0 } (m.eval { q with clk := 1 } prev)))) ∧
    (∀ (s : Sim σ) (k : Nat),
      (readbackStep m s k).top.data_memory_address = k ∧
      (readbackStep m s k).cout
        = s.cout ++ [(k, m.data_memory_data_out (readbackStep m s k).state)]) := by
  have hp := session_periods m top0 init program
  obtain ⟨Tb, _, _, hb⟩ := hp.2.2.2.1
  have hlen := hp.2.2.2.2.2.2.1
  refine ⟨hlen, ?_, ?_, fun s k => ⟨rfl, rfl⟩⟩
  · apply List.ext_getElem?
    intro k
    by_cases hk : k < 16
    · obtain ⟨prev, _, hc⟩ := hb k hk
      rw [List.getElem?_map, hc, List.getElem?_range hk]
      rfl
    · rw [List.getElem?_eq_none (by rw [List.length_map, hlen]; omega),
        List.getElem?_eq_none (by rw [List.length_range]; omega)]
  · intro k hk
    obtain ⟨prev, h1, h2⟩ := hb k hk
    exact ⟨_, prev, h1, h2⟩

/-- Witness of C13: the entry of readback cycle 5 of a session of the toy model. -/
theorem readback_trace_witness :
    ∃ q prev,
      Period demoModel (session demoModel demoPins 0 [0x13]).evals (1 + 1 + 256 + 5) q prev ∧
      (session demoModel demoPins 0 [0x13]).cout[5]?
        = some (5, demoModel.data_memory_data_out
            (demoModel.eval { q with clk := 0 } (demoModel.eval { q with clk := 1 } prev))) :=
  (readback_trace demoModel demoPins 0 [0x13]).2.2.1 5 (by decide)

/-- C14. Readback lag: the body of the readback loop for cycle `i` advances one clock
period, then sets `data_memory_address := i`, then records `data_memory_data_out`, with no
evaluation of the model after the clock period.  So the value recorded for cycle `i` is
the output after the second evaluation of the clock period of cycle `i`, and both
evaluations of that period saw the address `i - 1` (for `i = 0`, the address held from
the start of the session): entry `i` reports the output for the address `i - 1`. -/
theorem readback_lag {σ : Type} (m : Model σ) (top0 : Pins) (init : σ)
    (program : List Int) :
    (∀ (s : Sim σ) (i : Nat),
      (readbackStep m s i).evals = (tick m true s).evals ∧
      (readbackStep m s i).state = (tick m true s).state ∧
      (readbackStep m s i).top
        = { (tick m true s).top with data_memory_address := i } ∧
      (readbackStep m s i).cout
        = s.cout ++ [(i, m.data_memory_data_out (tick m true s).state)]) ∧
    (∀ i, i < 16 → ∃ q prev,
      Period m (session m top0 init program).evals (1 + program.length + 256 + i) q prev ∧
      q.data_memory_address = (if i = 0 then top0.data_memory_address else i - 1) ∧
      (session m top0 init program).cout[i]?
        = some (i, m.data_memory_data_out
            (m.eval { q with clk := 0 } (m.eval { q with clk := 1 } prev)))) := by
  have hp := session_periods m top0 init program
  obtain ⟨Tb, _, hd, hb⟩ := hp.2.2.2.1
  refine ⟨fun s i => ⟨rfl, rfl, rfl, rfl⟩, ?_⟩
  intro i hi
  obtain ⟨prev, h1, h2⟩ := hb i hi
  refine ⟨_, prev, h1, ?_, h2⟩
  show (if i = 0 then Tb.data_memory_address else i - 1) = _
  rw [hd]

set_option maxRecDepth 100000 in
/-- Witness of C14: in a session of the toy model (output = ten times the address seen by
the last evaluation, initial address 7) the trace reads 70, 0, 10, 20, ..: entry `i`
shows the output for the address `i - 1`. -/
theorem readback_lag_witness :
    (∃ q prev,
      Period demoModel (session demoModel demoPins 0 []).evals (1 + 0 + 256 + 3) q prev ∧
      q.data_memory_address = (if 3 = 0 then demoPins.data_memory_address else 3 - 1) ∧
      (session demoModel demoPins 0 []).cout[3]?
        = some (3, demoModel.data_memory_data_out
            (demoModel.eval { q with clk := 0 }
              (demoModel.eval { q with clk := 1 } prev)))) ∧
    (session demoModel demoPins 0 []).cout
      = [(0, 70), (1, 0), (2, 10), (3, 20), (4, 30), (5, 40), (6, 50), (7, 60), (8, 70),
         (9, 80), (10, 90), (11, 100), (12, 110), (13, 120), (14, 130), (15, 140)] :=
  ⟨(readback_lag demoModel demoPins 0 []).2 3 (by decide), rfl⟩

/-- C15. Clock period: every call of `tick` evaluates the model exactly twice, first with
`clk = 1` and then with `clk = 0`, writes no pin other than `clk`, leaves `clk = 0` and
advances the time base by 2, one unit after each edge (the waveform samples, when taken,
are at the times `t` and `t + 1`).  Hence the time base increases strictly, keeps its
parity, and at the end of a session with an `N`-word program it is `2 * (N + 273)`, the
number of evaluations, twice the number of clock periods; the samples of the session are
at the times `0, 1, .., 2 * (N + 273) - 1`. -/
theorem clock_period {σ : Type} (m : Model σ) :
    (∀ (tfp : Bool) (s : Sim σ),
      (tick m tfp s).evals
        = s.evals ++ [({ s.top with clk := 1 }, m.eval { s.top with clk := 1 } s.state),
            ({ s.top with clk := 0 },
              m.eval { s.top with clk := 0 } (m.eval { s.top with clk := 1 } s.state))] ∧
      (tick m tfp s).state
        = m.eval { s.top with clk := 0 } (m.eval { s.top with clk := 1 } s.state) ∧
      (tick m tfp s).top = { s.top with clk := 0 } ∧
      (tick m tfp s).top.clk = 0 ∧
      (tick m tfp s).main_time = s.main_time + 2 ∧
      s.main_time < (tick m tfp s).main_time ∧
      (tick m tfp s).main_time % 2 = s.main_time % 2 ∧
      (tick m tfp s).vcd
        = (if tfp then s.vcd ++ [s.main_time, s.main_time + 1] else s.vcd) ∧
      (tick m tfp s).cout = s.cout) ∧
    (∀ (top0 : Pins) (init : σ) (program : List Int),
      (session m top0 init program).main_time = 2 * (program.length + 273) ∧
      (session m top0 init program).main_time
        = (session m top0 init program).evals.length ∧
      (session m top0 init program).main_time % 2 = 0 ∧
      (session m top0 init program).vcd = List.range (2 * (program.length + 273))) := by
  constructor
  · intro tfp s
    refine ⟨rfl, rfl, rfl, rfl, rfl, ?_, ?_, ?_, rfl⟩
    · rw [tick_time]
      omega
    · rw [tick_time]
      omega
    · cases tfp
      · rfl
      · exact tick_vcd m s
  · intro top0 init program
    have hp := session_periods m top0 init program
    refine ⟨hp.2.2.2.2.2.2.2.1, ?_, ?_, hp.2.2.2.2.2.2.2.2⟩
    · rw [hp.2.2.2.2.2.2.2.1, hp.2.2.2.2.1]
    · rw [hp.2.2.2.2.2.2.2.1]
      omega

/-- C16. Reset phase: the first clock period of a session is evaluated with `rst = 1`,
`service_mode = 1`, `program_memory_rst = 1` and `program_memory_write_enable = 0`,
starting from the initial state of the model; it is the only such period: at every later
evaluation `rst = 0` and `program_memory_rst = 0`. -/
theorem reset_phase {σ : Type} (m : Model σ) (top0 : Pins) (init : σ)
    (program : List Int) :
    Period m (session m top0 init program).evals 0
      { top0 with rst := 1, service_mode := 1, program_memory_rst := 1,
                  program_memory_write_enable := 0 } init ∧
    (∀ j x, (session m top0 init program).evals[j]? = some x →
      (j < 2 → x.1.rst = 1 ∧ x.1.service_mode = 1 ∧ x.1.program_memory_rst = 1 ∧
        x.1.program_memory_write_enable = 0) ∧
      (2 ≤ j → x.1.rst = 0 ∧ x.1.program_memory_rst = 0)) := by
  have hp := session_periods m top0 init program
  refine ⟨hp.1, ?_⟩
  intro j x hx
  have key : ∀ c : Nat × Nat × Nat × Nat, x.1.control = c →
      x.1.rst = c.1 ∧ x.1.service_mode = c.2.1 ∧ x.1.program_memory_rst = c.2.2.1 ∧
        x.1.program_memory_write_enable = c.2.2.2 := by
    intro c hc
    rw [← hc]
    exact ⟨rfl, rfl, rfl, rfl⟩
  rcases session_control m top0 init program j x hx with h | h | h | h
  · have k := key _ h.2
    exact ⟨fun _ => k, fun h2 => absurd h2 (by omega)⟩
  · have k := key _ h.2.2
    exact ⟨fun h2 => absurd h2 (by omega), fun _ => ⟨k.1, k.2.2.1⟩⟩
  · have k := key _ h.2.2
    exact ⟨fun h2 => absurd h2 (by omega), fun _ => ⟨k.1, k.2.2.1⟩⟩
  · have k := key _ h.2.2
    exact ⟨fun h2 => absurd h2 (by omega), fun _ => ⟨k.1, k.2.2.1⟩⟩

set_option maxRecDepth 100000 in
/-- Witness of C16: in a session of the toy model with the empty program, the first
evaluation (index 0) has the reset pins set and the last one (index 545) has them
cleared. -/
theorem reset_phase_witness :
    (session demoModel demoPins 0 []).evals[0]? = some (⟨1, 1, 1, 1, 0, 0, 0, 7⟩, 7) ∧
    (session demoModel demoPins 0 []).evals[545]? = some (⟨0, 0, 1, 0, 0, 0, 0, 14⟩, 14) ∧
    ((⟨1, 1, 1, 1, 0, 0, 0, 7⟩ : Pins).rst = 1 ∧
      (⟨1, 1, 1, 1, 0, 0, 0, 7⟩ : Pins).service_mode = 1 ∧
      (⟨1, 1, 1, 1, 0, 0, 0, 7⟩ : Pins).program_memory_rst = 1 ∧
      (⟨1, 1, 1, 1, 0, 0, 0, 7⟩ : Pins).program_memory_write_enable = 0) ∧
    ((⟨0, 0, 1, 0, 0, 0, 0, 14⟩ : Pins).rst = 0 ∧
      (⟨0, 0, 1, 0, 0, 0, 0, 14⟩ : Pins).program_memory_rst = 0) :=
  ⟨rfl, rfl,
   ((reset_phase demoModel demoPins 0 []).2 0 (⟨1, 1, 1, 1, 0, 0, 0, 7⟩, 7) rfl).1
      (by decide),
   ((reset_phase demoModel demoPins 0 []).2 545 (⟨0, 0, 1, 0, 0, 0, 0, 14⟩, 14) rfl).2
      (by decide)⟩

/-! ## The assembler: determinism, layout, collisions, dead code -/

/-- C17, evaluated at the failing input `"MOV1"` (a mnemonic without its operand).  The
table part of the claim holds: every call leaves `opcodeMap` as it was, with its 17
entries, `operator[]` being reached only for a key that is present.  But the extraction
of the missing operand fails without writing the variable `rd`, so the word depends on
the indeterminate value of `rd`: `0xE0` when it is 0 and `0xE2` when it is 1. -/
theorem missing_operand_indeterminate :
    (∀ (junk : Nat → Int) (line : String),
      (assemble opcodeMap junk line).map = opcodeMap) ∧
    opcodeMap.length = 17 ∧
    (∀ M : String, opcodeMap.lookup M ≠ none → (opcodeMap.index M).1 = opcodeMap) ∧
    (assemble opcodeMap (fun _ => 0) "MOV1").result = .ok 0xE0 ∧
    (assemble opcodeMap (fun _ => 1) "MOV1").result = .ok 0xE2 ∧
    (assemble opcodeMap (fun _ => 0) "MOV1").result
      ≠ (assemble opcodeMap (fun _ => 1) "MOV1").result := by
  refine ⟨fun junk line => assemble_map opcodeMap junk line, rfl, ?_, rfl, rfl, ?_⟩
  · intro M hM
    unfold OpcodeMap.index
    cases h : List.lookup M opcodeMap with
    | none => exact absurd h hM
    | some v => rfl
  · have h0 : (assemble opcodeMap (fun _ => 0) "MOV1").result = .ok 0xE0 := rfl
    have h1 : (assemble opcodeMap (fun _ => 1) "MOV1").result = .ok 0xE2 := rfl
    rw [h0, h1]
    intro h
    injection h with h
    exact absurd h (by decide)

/-- C18. Built-in program layout: every line of the built-in assembly list assembles
without failure, whatever the indeterminate values, so nothing is reported, no address is
shifted (the word at address `i` is the word of line `i`), the program has 50 words, and
line 26, `"ADD 1 1 2"`, the first instruction of the loop, gives the word at address 26
(`0x0E`). -/
theorem builtin_program_layout (junk : Nat → Nat → Int) :
    assembly.length = 50 ∧
    (assembleProgram junk assembly).program
      = [0x13, 0x1B, 0xE2, 0xF4, 0x87, 0xE2, 0xF4, 0x16, 0xEC, 0xF4,
         0x11, 0xBA, 0x12, 0xEA, 0xF4,
         0x11, 0x1B, 0xE2, 0xF4, 0x87, 0xE8, 0xF4,
         0x10, 0xE2, 0xF4,
         0x11,
         0x0E, 0xE2, 0xFA, 0xBD, 0xEE, 0xF4, 0x15, 0xEA, 0xF4, 0xE4, 0xFE, 0xE2, 0xF8, 0xEE,
         0xF6, 0x3D, 0xCC, 0xE8, 0xF6, 0xE2, 0xF4, 0xE4, 0xFE, 0xDA] ∧
    (assembleProgram junk assembly).program.length = 50 ∧
    (assembleProgram junk assembly).cerr = [] ∧
    (∀ i, (assembleProgram junk assembly).program[i]? = lineWord junk assembly i) ∧
    assembly[26]? = some "ADD 1 1 2" ∧
    (assemble opcodeMap (junk 26) "ADD 1 1 2").result = .ok 0x0E ∧
    (assembleProgram junk assembly).program[26]? = some 0x0E := by
  have hprog : (assembleProgram junk assembly).program
      = [0x13, 0x1B, 0xE2, 0xF4, 0x87, 0xE2, 0xF4, 0x16, 0xEC, 0xF4,
         0x11, 0xBA, 0x12, 0xEA, 0xF4,
         0x11, 0x1B, 0xE2, 0xF4, 0x87, 0xE8, 0xF4,
         0x10, 0xE2, 0xF4,
         0x11,
         0x0E, 0xE2, 0xFA, 0xBD, 0xEE, 0xF4, 0x15, 0xEA, 0xF4, 0xE4, 0xFE, 0xE2, 0xF8, 0xEE,
         0xF6, 0x3D, 0xCC, 0xE8, 0xF6, 0xE2, 0xF4, 0xE4, 0xFE, 0xDA] := by
    rw [assembleProgram_program]
    rfl
  have hsum := (assembleLoop_program junk assembly assembly 0 ⟨[], [], opcodeMap⟩ rfl
    rfl).2.2
  have hlen : (assembleProgram junk assembly).program.length = 50 := by
    rw [hprog]
    rfl
  have hcerr : (assembleProgram junk assembly).cerr = [] := by
    have h : (assembleProgram junk assembly).program.length
        + (assembleProgram junk assembly).cerr.length = 50 := hsum
    rw [hlen] at h
    exact List.length_eq_zero.1 (by omega)
  refine ⟨rfl, hprog, hlen, hcerr, ?_, rfl, rfl, ?_⟩
  · intro i
    rw [hprog]
    by_cases hi : i < 50
    · interval_cases i <;> rfl
    · have h1 : lineWord junk assembly i = none := by
        unfold lineWord
        rw [List.getElem?_eq_none (by show assembly.length ≤ i; rw [show assembly.length = 50 from rfl]; omega)]
      rw [h1]
      exact List.getElem?_eq_none (by simp; omega)
  · rw [hprog]
    rfl

theorem nibble_of_sum (o x : Int) (ho : 0 ≤ o ∧ o < 16) (hx : 0 ≤ x ∧ x < 16) :
    ((o * 16 + x) >>> 4) &&& 15 = o := by
  rw [shr4, land_fifteen]
  omega

/-- The opcode nibble of every word assembled for a table mnemonic. -/
theorem assemble_nibble (junk : Nat → Int) (line : String)
    (h : mnemonicOf line ∈ mnemonics) :
    ∃ w, (assemble opcodeMap junk line).result = .ok w ∧
      (w >>> 4) &&& 15 = opcodeNibble (mnemonicOf line) := by
  simp only [mnemonics, List.mem_cons, List.mem_singleton, List.not_mem_nil, or_false] at h
  have alu : ∀ M opc, (M, opc) ∈ opcodeMap → opc ∈ Opcode.alu → opcodeNibble M = opc.val →
      mnemonicOf line = M →
      ∃ w, (assemble opcodeMap junk line).result = .ok w ∧
        (w >>> 4) &&& 15 = opcodeNibble (mnemonicOf line) := by
    intro M opc hM halu hn hm
    rw [assemble_alu junk line M opc _ hM halu hm rfl, hm, hn]
    refine ⟨_, rfl, ?_⟩
    rw [makeALUOP_sum opc (alu_enumerator opc halu)]
    have hr := enumerator_range opc (alu_enumerator opc halu)
    have e : ∀ a b c : Int, opc.val * 16 + a * 8 + b * 4 + c
        = opc.val * 16 + (a * 8 + b * 4 + c) := by
      intro a b c
      ring
    rw [e]
    exact nibble_of_sum _ _ hr ⟨by omega, by omega⟩
  have two := assemble_two junk line _ rfl
  have one := assemble_one junk line _ rfl
  rcases h with h | h | h | h | h | h | h | h | h | h | h | h | h | h | h | h | h
  · exact alu "ADD" ADD (by decide) (by decide) rfl h
  · exact alu "ADDI" ADDI (by decide) (by decide) rfl h
  · exact alu "SUB" SUB (by decide) (by decide) rfl h
  · exact alu "SUBI" SUBI (by decide) (by decide) rfl h
  · exact alu "AND" AND (by decide) (by decide) rfl h
  · exact alu "OR" OR (by decide) (by decide) rfl h
  · exact alu "XOR" XOR (by decide) (by decide) rfl h
  · exact alu "NOT" NOT (by decide) (by decide) rfl h
  · exact alu "LSL" LSL (by decide) (by decide) rfl h
  · exact alu "LSR" LSR (by decide) (by decide) rfl h
  · rw [two.1 h, h]
    refine ⟨_, rfl, ?_⟩
    rw [makeLOAD_sum, Int.add_assoc]
    exact nibble_of_sum 10 _ (by decide) ⟨by omega, by omega⟩
  · rw [two.2.1 h, h]
    refine ⟨_, rfl, ?_⟩
    rw [makeSTOR_sum, Int.add_assoc]
    exact nibble_of_sum 11 _ (by decide) ⟨by omega, by omega⟩
  · rw [two.2.2.2 h, h]
    refine ⟨_, rfl, ?_⟩
    rw [makeCMP_sum, Int.add_assoc]
    exact nibble_of_sum 12 _ (by decide) ⟨by omega, by omega⟩
  · rw [two.2.2.1 h, h]
    refine ⟨_, rfl, ?_⟩
    rw [makeB_sum, Int.add_assoc]
    exact nibble_of_sum 13 _ (by decide) ⟨by omega, by omega⟩
  · rw [one.1 h, h]
    refine ⟨_, rfl, ?_⟩
    rw [makeMOV1_sum]
    exact nibble_of_sum 14 _ (by decide) ⟨by omega, by omega⟩
  · rw [one.2 h, h]
    refine ⟨_, rfl, ?_⟩
    rw [makeMOV2_sum]
    exact nibble_of_sum 15 _ (by decide) ⟨by omega, by omega⟩
  · rw [assemble_nop junk line h, h]
    exact ⟨_, rfl, by decide⟩

/-- The opcode nibbles of two distinct table mnemonics differ, except for `NOP` and
`ADD`, which share the nibble 0. -/
theorem opcodeNibble_injective :
    ∀ M1 ∈ mnemonics, ∀ M2 ∈ mnemonics, M1 ≠ M2 →
      ¬ (M1 = "NOP" ∧ M2 = "ADD") → ¬ (M1 = "ADD" ∧ M2 = "NOP") →
      opcodeNibble M1 ≠ opcodeNibble M2 := by
  decide

/-- C19. The assembled encoding is not injective across mnemonics: `"NOP"` and
`"ADD 0 0 0"` both assemble to `0x00`, and so does every `ADD rd ra rb` with `rd`, `ra`
even and `rb` a multiple of 4, so that a `NOP` word cannot be told from an `ADD` word by
decoding; for every other pair of distinct table mnemonics the assembled words differ in
bits 7-4. -/
theorem nop_add_collision :
    (∀ junk : Nat → Int,
      (assemble opcodeMap junk "NOP").result = .ok 0x00 ∧
      (assemble opcodeMap junk "ADD 0 0 0").result = .ok 0x00) ∧
    (∀ (junk : Nat → Int) (rd ra rb : Int),
      InIntRange rd → InIntRange ra → InIntRange rb →
      rd % 2 = 0 → ra % 2 = 0 → rb % 4 = 0 →
      (assemble opcodeMap junk (instructionText "ADD" [rd, ra, rb])).result = .ok 0x00) ∧
    (∀ (junk1 junk2 : Nat → Int) (line1 line2 : String) (w1 w2 : Int),
      mnemonicOf line1 ∈ mnemonics → mnemonicOf line2 ∈ mnemonics →
      mnemonicOf line1 ≠ mnemonicOf line2 →
      ¬ (mnemonicOf line1 = "NOP" ∧ mnemonicOf line2 = "ADD") →
      ¬ (mnemonicOf line1 = "ADD" ∧ mnemonicOf line2 = "NOP") →
      (assemble opcodeMap junk1 line1).result = .ok w1 →
      (assemble opcodeMap junk2 line2).result = .ok w2 →
      (w1 >>> 4) &&& 15 ≠ (w2 >>> 4) &&& 15) := by
  refine ⟨fun junk => ⟨rfl, rfl⟩, ?_, ?_⟩
  · intro junk rd ra rb hrd hra hrb e1 e2 e3
    rw [assemble_text_alu junk "ADD" ADD (by decide) (by decide) rd ra rb hrd hra hrb,
      makeALUOP_sum ADD (by decide), e1, e2, e3]
    rfl
  · intro junk1 junk2 line1 line2 w1 w2 h1 h2 hne hna han r1 r2
    obtain ⟨v1, hv1, n1⟩ := assemble_nibble junk1 line1 h1
    obtain ⟨v2, hv2, n2⟩ := assemble_nibble junk2 line2 h2
    rw [hv1] at r1
    rw [hv2] at r2
    injection r1 with r1
    injection r2 with r2
    subst r1
    subst r2
    rw [n1, n2]
    exact opcodeNibble_injective _ h1 _ h2 hne hna han

/-- Witness of C19: `"ADD 2 4 8"` also assembles to `0x00`, while the words of
`"ADDI 0 0 0"` and `"ADD 0 0 0"` differ in bits 7-4. -/
theorem nop_add_collision_witness :
    (assemble opcodeMap (fun _ => 0) (instructionText "ADD" [2, 4, 8])).result = .ok 0x00 ∧
    (0x10 >>> 4 : Int) &&& 15 ≠ (0x00 >>> 4 : Int) &&& 15 :=
  ⟨nop_add_collision.2.1 (fun _ => 0) 2 4 8 ⟨by decide, by decide⟩ ⟨by decide, by decide⟩
      ⟨by decide, by decide⟩ (by decide) (by decide) (by decide),
   nop_add_collision.2.2 (fun _ => 0) (fun _ => 0) "ADDI 0 0 0" "ADD 0 0 0" 0x10 0x00
      (by decide) (by decide) (by decide) (by decide) (by decide) rfl rfl⟩

theorem what_ne (a b : String) :
    "Unknown instruction: " ++ a ≠ "Assembler: unsupported mnemonic " ++ b := by
  intro h
  have h2 := congrArg (fun s : String => s.data.head?) h
  simp only [String.data_append] at h2
  have h3 : some 'U' = some 'A' := h2
  exact absurd h3 (by decide)

/-- C20. The final "Assembler: unsupported mnemonic" failure of `assemble` is
unreachable: each of the 17 keys of `opcodeMap` is taken by one of the dispatch branches,
so for every line `assemble` either fails with "Unknown instruction" at the table lookup
or returns a word from a dispatch branch. -/
theorem unsupported_unreachable (junk : Nat → Int) (line : String) :
    ((assemble opcodeMap junk line).result
        = .error ⟨"Unknown instruction: " ++ mnemonicOf line⟩ ∨
      ∃ w, (assemble opcodeMap junk line).result = .ok w) ∧
    (∀ M : String,
      (assemble opcodeMap junk line).result
        ≠ .error ⟨"Assembler: unsupported mnemonic " ++ M⟩) ∧
    (∀ p ∈ opcodeMap,
      p.1 = "NOP" ∨
      p.1 ∈ ["ADD", "ADDI", "SUB", "SUBI", "AND", "OR", "XOR", "NOT", "LSL", "LSR"] ∨
      p.1 = "LDUR" ∨ p.1 = "STOR" ∨ p.1 = "B" ∨ p.1 = "CMP" ∨ p.1 = "MOV1" ∨
      p.1 = "MOV2") := by
  by_cases h : mnemonicOf line ∈ mnemonics
  · obtain ⟨w, hw, _⟩ := assemble_table junk line h
    refine ⟨Or.inr ⟨w, hw⟩, ?_, by decide⟩
    intro M
    rw [hw]
    exact fun e => by cases e
  · have hu := assemble_unknown junk line h
    refine ⟨Or.inl hu, ?_, by decide⟩
    intro M
    rw [hu]
    intro e
    injection e with e
    injection e with e
    exact what_ne _ _ e

/-- Witness of C20: the key `B` of the table is taken by the branch of `B`. -/
theorem unsupported_unreachable_witness :
    ("B", B).1 = "NOP" ∨
    ("B", B).1 ∈ ["ADD", "ADDI", "SUB", "SUBI", "AND", "OR", "XOR", "NOT", "LSL", "LSR"] ∨
    ("B", B).1 = "LDUR" ∨ ("B", B).1 = "STOR" ∨ ("B", B).1 = "B" ∨ ("B", B).1 = "CMP" ∨
    ("B", B).1 = "MOV1" ∨ ("B", B).1 = "MOV2" :=
  (unsupported_unreachable (fun _ => 0) "B 2 2").2.2 ("B", B) (by decide)

end Cpu8
